import Mathlib

/-!
Verification of the collapsible-table spreadsheet composer (src/Excel.py).

This file gives a shallow embedding of the parts of the program that the
specification claims talk about:

* `Table_convert` models `Table._convert` (aggregate-formula building);
* `add_column_formats` models `CollapsibleTable.add_column_formats`, with
  Python exception flow (the bare `except` that swallows errors) made explicit;
* `write_line_col` / `write_line` model the per-column body of the inner
  `write_line` closure of `ExcelWriter.add_collapsible_table`;
* `row_loop` / `looper` model `_recursive_data_looper`, including the mutable
  filter dictionary that is truncated with `pop` before each descent;
* `add_collapsible_table` models the surrounding method: total-row placement,
  header writes, the traversal and the total-row write.

Modelling conventions:

* Cell values are strings (the sample data's numbers appear as their decimal
  strings).  The pandas `query` built by the source compares a column against
  the quoted string form of the filter value, so on string-valued key columns
  it is exactly string equality, which is what `query_df` implements.
* Condition strings are evaluated by the source with Python `eval` in a scope
  where only `_column_` (the current cell value) is bound; the source comments
  document `_column_` as the supported variable.  Conditions are therefore
  modelled as Boolean functions of that one value (`CondV`).
* The nested `collections.defaultdict` auto-vivification is modelled by
  association-list lookups with explicit defaults; the stored-condition type
  `PyCondStored` distinguishes an explicitly stored Python `None` from the
  empty defaultdict produced by reading an unset path (`autoviv`).
* Backend calls are recorded as an `Event` trace: scalar writes, url writes,
  data-validation applications and row outline/hidden settings.  Calls with no
  bearing on any claim (merge_range, freeze_panes, autofilter, comments,
  set_column) are not recorded.
* Ghost observation fields (`log`, `calls`, `fmtEvals` and the `path`
  argument) record what the traversal did; they do not influence the computed
  events.
-/

namespace Excel

/-- Cell values as rendered into the sheet and into pandas query strings. -/
abbrev Cell := String

/-- One data row, positionally aligned with its DataFrame's column list. -/
abbrev Row := List Cell

/-- A condition, as evaluated by Python `eval` with `_column_` bound to the
current cell value. -/
abbrev CondV := Cell → Bool

/-- The mutable filter dictionary of `_recursive_data_looper`: an insertion
ordered mapping from level-key column names to ancestor values. -/
abbrev Filter := List (String × Cell)

/-- Association-list lookup, the model of a Python dict read. -/
def alookup {β : Type} (m : List (String × β)) (k : String) : Option β :=
  (m.find? (fun p => p.1 == k)).map (fun p => p.2)

/-- A pandas DataFrame: named columns and positional rows. -/
structure DataFrame where
  cols : List String
  rows : List Row
deriving Repr, DecidableEq, Inhabited

/-- The fixed registry of supported aggregation functions (`AGG_CONVERSION`
in the source), mapping upper-case names to Excel AGGREGATE function codes. -/
def AGG_CONVERSION : List (String × Nat) :=
  [("AVERAGE", 1), ("COUNT", 2), ("COUNTA", 3), ("MAX", 4), ("MIN", 5),
   ("PRODUCT", 6), ("STDEV.S", 7), ("STDEV.P", 8), ("SUM", 9), ("VAR.S", 10),
   ("VAR.P", 11), ("MEDIAN", 12), ("MODE.SNGL", 13), ("LARGE", 14),
   ("SMALL", 15), ("PERCENTILE.INC", 16), ("QUARTILE.INC", 17),
   ("PERCENTILE.EXC", 18), ("QUARTILE.EXC", 19)]

/-- Registry lookup, the model of `AGG_CONVERSION[name]`. -/
def agg_lookup (k : String) : Option Nat := alookup AGG_CONVERSION k

/-- The backtick character, written by code point to keep it out of the
source text. -/
def backtick : Char := Char.ofNat 96

/-- Splitting a character list on a separator, keeping empty pieces, exactly
as Python `str.split(sep)` does (structural, so that it evaluates in the
kernel, unlike `String.splitOn`). -/
def split_go (sep : Char) : List Char → List Char → List (List Char)
  | [], acc => [acc.reverse]
  | c :: cs, acc =>
    if c == sep then acc.reverse :: split_go sep cs []
    else split_go sep cs (c :: acc)

/-- Model of Python `base_string.split(chr(96))`. -/
def py_split_backtick (s : String) : List String :=
  (split_go backtick s.data []).map (fun l => String.mk l)

/-- Model of Python `str.upper` on the ASCII function names. -/
def py_upper (s : String) : String := String.mk (s.data.map Char.toUpper)

/-- The `aggregation_functions` parameter of `Table._convert`: the typed
surface admits a single name or a list of names. -/
inductive AggArg where
  | astr (s : String)
  | alist (l : List String)

/-- The exceptions `Table._convert` can raise.  `keyError` carries the
upper-cased offending token (Python re-raises `KeyError(f'no {key_error}
aggregation function')`, whose text quotes exactly this token). -/
inductive ConvErr where
  | valueError
  | keyError (tok : String)
  | indexError
deriving Repr, DecidableEq

/-- The formula-building loop of `Table._convert`: parts at even indices are
literal text, parts at odd indices are column names between backticks and
trigger a registry lookup of the consumed aggregation-function name. -/
def conv_loop (table_name : String) (aggs : AggArg) :
    List String → Nat → String → Except ConvErr String
  | [], _, acc => Except.ok acc
  | p :: rest, i, acc =>
    if i % 2 == 0 then
      conv_loop table_name aggs rest (i + 1) (acc ++ p)
    else
      match aggs with
      | .alist l =>
        match l[i / 2]? with
        | none => Except.error ConvErr.indexError
        | some fname =>
          match agg_lookup (py_upper fname) with
          | none => Except.error (ConvErr.keyError (py_upper fname))
          | some code =>
            conv_loop table_name aggs rest (i + 1)
              (acc ++ "_xlfn.AGGREGATE(" ++ toString code ++ ", 5, " ++
                table_name ++ "[" ++ p ++ "])")
      | .astr fname =>
        match agg_lookup (py_upper fname) with
        | none => Except.error (ConvErr.keyError (py_upper fname))
        | some code =>
          conv_loop table_name aggs rest (i + 1)
            (acc ++ "_xlfn.AGGREGATE(" ++ toString code ++ ", 5, " ++
              table_name ++ "[" ++ p ++ "])")

/-- Model of `Table._convert`.  The list-length check compares the number of
NON-EMPTY backtick-split parts minus one (a Python `int`, hence computed in
`Int`) with the length of the function list. -/
def Table_convert (base_string table_name : String) (aggregation_functions : AggArg) :
    Except ConvErr String :=
  let parts := py_split_backtick base_string
  match aggregation_functions with
  | .alist l =>
    if ((parts.filter (fun p => !(p == ""))).length : Int) - 1 ≠ (l.length : Int) then
      Except.error ConvErr.valueError
    else
      (conv_loop table_name aggregation_functions parts 0 "=(").map (fun s => s ++ ")")
  | .astr _ =>
    (conv_loop table_name aggregation_functions parts 0 "=(").map (fun s => s ++ ")")

/-- The number of backtick-delimited placeholders in a template, in the sense
of the specification: the odd-index entries of the backtick split. -/
def placeholder_count (base_string : String) : Nat :=
  (py_split_backtick base_string).length / 2

/-- What a `formats`/`total_formats` slot holds: the Python value passed as
`format`, either a bare style name or a parallel list of style names. -/
inductive PyStyleStored where
  | sstr (s : String)
  | slist (ss : List String)
deriving Repr, Inhabited

/-- What a `conditions`/`total_conditions`/`data_validation_condition` slot
holds when read.  `pnone` is an explicitly stored Python `None`; `autoviv` is
the empty `defaultdict` that reading an unset path of the nested `makehash`
structure materialises (it is not `None` and is neither a `str` nor a
`list`, so both `isinstance` branches of the source skip it). -/

inductive PyCondStored where
  | pnone
  | autoviv
  | cstr (c : CondV)
  | clist (cs : List CondV)

/-- Python dict assignment `m[k] = v`: overwrite in place if the key exists
(keeping insertion order), append otherwise. -/
def dinsert {β : Type} (m : List (String × β)) (k : String) (v : β) : List (String × β) :=
  match m with
  | [] => [(k, v)]
  | p :: rest => if p.1 == k then (k, v) :: rest else p :: dinsert rest k v

/-- Nested dict assignment `m[a][b] = v` on an auto-vivifying dict-of-dicts. -/
def dinsert2 {β : Type} (m : List (String × List (String × β))) (a b : String) (v : β) :
    List (String × List (String × β)) :=
  dinsert m a (dinsert ((alookup m a).getD []) b v)

/-- Reading `m[a][b]` where an unset path yields the auto-vivified value. -/
def lookup2 {β : Type} (m : List (String × List (String × β))) (a b : String) : Option β :=
  alookup ((alookup m a).getD []) b

/-- Reading a nested condition slot, with auto-vivification. -/
def lookup2c (m : List (String × List (String × PyCondStored))) (a b : String) : PyCondStored :=
  (lookup2 m a b).getD PyCondStored.autoviv

/-- The `CollapsibleTable` model: the constructor state plus everything the
registration methods mutate.  `data` keeps the dict's insertion order, so
`levels = list(data.keys())` is its key list. -/
structure CTable where
  header : List String
  data : List (String × DataFrame)
  start_col : Nat := 0
  header_row : Option Nat := some 1
  data_row : Nat := 2
  total_row : String := "bottom"
  formats : List (String × List (String × PyStyleStored)) := []
  conditions : List (String × List (String × PyCondStored)) := []
  total_formats : List (String × PyStyleStored) := []
  total_conditions : List (String × PyCondStored) := []
  links : List (String × List (String × List (Cell × String))) := []
  data_validation : List (String × List String) := []
  data_validation_condition : List (String × List (String × PyCondStored)) := []
  data_properties : Option (List (String × Option Bool)) := none
  total_row_values : Option (List (String × Cell)) := none

/-- `self.levels = list(data.keys())`. -/
def CTable.levels (t : CTable) : List String := t.data.map Prod.fst

/-- A `str`-or-`list` Python argument. -/
inductive StrOrList where
  | s (v : String)
  | l (vs : List String)

/-- The `condition` argument of `add_column_formats`: `None`, one condition,
or a parallel list of conditions. -/
inductive CondArg where
  | cnone
  | cs (c : CondV)
  | cl (cs : List CondV)

/-- Convert the `format` argument into its stored form. -/
def storeStyle : StrOrList → PyStyleStored
  | .s v => .sstr v
  | .l vs => .slist vs

/-- Convert the `condition` argument into its stored form. -/
def storeCond : CondArg → PyCondStored
  | .cnone => .pnone
  | .cs c => .cstr c
  | .cl cs => .clist cs

/-- Observable outcome of a registration call: the table afterwards, the
console output, and any exception that reached the caller. -/
structure ACFResult where
  table : CTable
  printed : List String
  exc : Option String

/-- Register format and condition for one level and one column. -/
def regFormat (t : CTable) (lv col : String) (f : PyStyleStored) (c : PyCondStored) : CTable :=
  { t with formats := dinsert2 t.formats lv col f,
           conditions := dinsert2 t.conditions lv col c }

/-- Register format and condition for a cross product of levels and columns,
in source loop order (levels outer, columns inner). -/
def regFormatMany (t : CTable) (lvs cols : List String) (f : PyStyleStored) (c : PyCondStored) :
    CTable :=
  lvs.foldl (fun acc lv => cols.foldl (fun acc2 col => regFormat acc2 lv col f c) acc) t

/-- Model of `CollapsibleTable.add_column_formats`.  The parallel check
raises a plain `Exception`, which the trailing bare `except:` catches and
turns into `print('error')`: no exception reaches the caller.  The
`columns`-is-a-string, `levels`-is-a-list branch of the source reads the
undefined loop variable `col`, so any non-empty levels list raises
`NameError` there, again swallowed into `print('error')`.  The
`except KeyError` arm is unreachable (defaultdict reads never raise). -/
def add_column_formats (t : CTable) (levels columns format : StrOrList)
    (condition : CondArg) : ACFResult :=
  let mismatch : Bool :=
    match format, condition with
    | .l fs, .cl cs => decide (fs.length ≠ cs.length)
    | .l _, .cs _ => true
    | .s _, .cl _ => true
    | _, _ => false
  if mismatch then { table := t, printed := ["error"], exc := none }
  else
    match columns, levels with
    | .l cols, .s lv =>
      { table := regFormatMany t [lv] cols (storeStyle format) (storeCond condition),
        printed := [], exc := none }
    | .l cols, .l lvs =>
      { table := regFormatMany t lvs cols (storeStyle format) (storeCond condition),
        printed := [], exc := none }
    | .s col, .s lv =>
      { table := regFormat t lv col (storeStyle format) (storeCond condition),
        printed := [], exc := none }
    | .s _, .l lvs =>
      match lvs with
      | [] => { table := t, printed := [], exc := none }
      | _ :: _ => { table := t, printed := ["error"], exc := none }

/-- A minimal one-level table used for concrete checks. -/
def tbl0 : CTable :=
  { header := ["A"], data := [("L", ⟨["A"], [["x"]]⟩)] }

/-- Model of `CollapsibleTable.add_links`: `links[level][column]` is replaced
by the given value-to-url mapping. -/
def CTable.add_links (t : CTable) (level column : String) (link_mapping : List (Cell × String)) :
    CTable :=
  { t with links := dinsert2 t.links level column link_mapping }

/-- Model of `CollapsibleTable.add_data_validation` (the dropdown values and
extras are irrelevant to the claims; what matters is which columns are
registered per level and the stored condition). -/
def CTable.add_data_validation (t : CTable) (column level : String) (condition : CondArg) :
    CTable :=
  { t with
    data_validation :=
      dinsert t.data_validation level
        (((alookup t.data_validation level).getD []).filter (fun c => !(c == column)) ++ [column]),
    data_validation_condition :=
      dinsert2 t.data_validation_condition level column (storeCond condition) }

/-- Model of `CollapsibleTable.add_total`: a frame of more than one row is
rejected, otherwise the single row is stored (as a column-to-value map). -/
def CTable.add_total (t : CTable) (line : List (String × List Cell)) : Except String CTable :=
  if 1 < ((line.map (fun p => p.2.length)).foldr max 0) then
    Except.error "Total must be of length 1"
  else
    Except.ok { t with total_row_values := some (line.map (fun p => (p.1, p.2.getD 0 ""))) }

/-- Model of `CollapsibleTable.add_total_formats` for a single column (the
same parallel check and bare `except` as `add_column_formats`). -/
def CTable.add_total_formats (t : CTable) (column : String) (format : StrOrList)
    (condition : CondArg) : ACFResult :=
  let mismatch : Bool :=
    match format, condition with
    | .l fs, .cl cs => decide (fs.length ≠ cs.length)
    | .l _, .cs _ => true
    | .s _, .cl _ => true
    | _, _ => false
  if mismatch then { table := t, printed := ["error"], exc := none }
  else
    { table := { t with total_formats := dinsert t.total_formats column (storeStyle format),
                        total_conditions := dinsert t.total_conditions column (storeCond condition) },
      printed := [], exc := none }

/-- The style names `_get_excel_format` recognises. -/
def excel_format_names : List String :=
  ["Bold", "BoldWrapped", "MergeCenter", "MergeLeft", "MergeRight", "BoldNum", "Num",
   "TwoDecimalNum", "Link", "TwoDecimalNumBold", "PercentBold", "Percent", "OrangePercent",
   "RedPercent", "Blank", "RedBackground", "GreenBackground", "YellowBackground", "DateFormat",
   "AccountingNoSign", "AccountingNoSignBold", "AccountingNoSignGreen", "AccountingNoSignRed",
   "Accounting", "AccountingBold", "AccountingGreen", "AccountingRed", "Datetime",
   "DatetimeBold", "Date", "DateBold", "Time", "TimeBold"]

/-- Model of `ExcelWriter._get_excel_format`: a known name yields its style
descriptor (identified here by the name), anything else yields Python
`None`, and a write with a `None` format is an unstyled write. -/
def get_excel_format (name : String) : Option String :=
  if excel_format_names.contains name then some name else none

/-- Passing a stored format value to `_get_excel_format`: a bare name is
looked up; a list value matches none of the equality tests and yields
`None`. -/
def fmt_of_spec : PyStyleStored → Option String
  | .sstr s => get_excel_format s
  | .slist _ => none

/-- `table.formats[level_name][col][index]` under a list-valued condition.
A string-valued format with a list condition cannot be registered (the
parallel check rejects it), so that arm yields no style. -/
def fmt_at (spec : PyStyleStored) (i : Nat) : Option String :=
  match spec with
  | .slist ss => get_excel_format (ss.getD i "")
  | .sstr _ => none

/-- One backend call recorded from the renderer. -/
inductive Event where
  | cell (r c : Nat) (v : Cell) (fmt : Option String)
  | url (r c : Nat) (link : String) (text : Cell)
  | valid (r c : Nat)
  | rowProps (r lvl : Nat) (hidden : Bool)
deriving Repr, DecidableEq, Inhabited

/-- The condition-list arm of the value write: every condition in the list is
evaluated (the source loop has no `break`), each true one performs a styled
write with the index-aligned format, and if none was true a plain write
happens.  The second component records the indices of evaluated conditions
(ghost observation). -/
def fmt_cond_loop (spec : PyStyleStored) (row cidx : Nat) (v : Cell) :
    List CondV → Nat → Bool → List Event × List Nat
  | [], _, written => (if written then [] else [Event.cell row cidx v none], [])
  | c :: rest, i, written =>
    let t := fmt_cond_loop spec row cidx v rest (i + 1) (written || c v)
    if c v then (Event.cell row cidx v (fmt_at spec i) :: t.1, i :: t.2)
    else (t.1, i :: t.2)

/-- The condition-list arm of the data-validation write: each true condition
applies the validation; if none was true the cell value is re-written with
no style. -/
def dv_cond_loop (row cidx : Nat) (v : Cell) : List CondV → Bool → List Event
  | [], written => if written then [] else [Event.cell row cidx v none]
  | c :: rest, written =>
    if c v then Event.valid row cidx :: dv_cond_loop row cidx v rest true
    else dv_cond_loop row cidx v rest written

/-- The value-write phase for one column (`write_line` lines: registered
format with `None` condition, with a single condition, with a condition
list, or plain write), together with the ghost evaluation indices. -/
def value_events (t : CTable) (row cidx : Nat) (v : Cell) (level_name col : String) :
    List Event × List Nat :=
  match lookup2 t.formats level_name col with
  | some spec =>
    match lookup2c t.conditions level_name col with
    | .pnone => ([Event.cell row cidx v (fmt_of_spec spec)], [])
    | .cstr c =>
      if c v then ([Event.cell row cidx v (fmt_of_spec spec)], [])
      else ([Event.cell row cidx v none], [])
    | .clist cs => fmt_cond_loop spec row cidx v cs 0 false
    | .autoviv => ([], [])
  | none => ([Event.cell row cidx v none], [])

/-- The link-write phase for one column.  The guard tests the column name
against the TOP-LEVEL keys of `links` (the level names), exactly as
`col in table.links.keys()` does in the source. -/
def link_events (t : CTable) (row cidx : Nat) (v : Cell) (level_name col : String) :
    List Event :=
  if (t.links.map Prod.fst).contains col then
    match lookup2 t.links level_name col with
    | some m =>
      match alookup m v with
      | some u => [Event.url row cidx u v]
      | none => []
    | none => []
  else []

/-- The data-validation phase for one column.  The first branch tests
membership in `data_validation[level_name]`; the `elif` branch tests the
column name against the TOP-LEVEL keys of `data_validation`, exactly as the
source does. -/
def dv_events (t : CTable) (row cidx : Nat) (v : Cell) (level_name col : String) :
    List Event :=
  match lookup2c t.data_validation_condition level_name col with
  | .pnone =>
    if ((alookup t.data_validation level_name).getD []).contains col then
      [Event.valid row cidx]
    else []
  | .cstr c =>
    if (t.data_validation.map Prod.fst).contains col then
      (if c v then [Event.valid row cidx] else [])
    else []
  | .clist cs =>
    if (t.data_validation.map Prod.fst).contains col then dv_cond_loop row cidx v cs false
    else []
  | .autoviv => []

/-- The `set_row` call at the end of the column loop: outline level equal to
the nesting position, hidden `False` at level 0, otherwise taken from
`data_properties[level_name]['hidden']` with default `True`. -/
def row_props_events (t : CTable) (row level : Nat) (level_name : String) : List Event :=
  if level ≠ 0 then
    match t.data_properties with
    | none => [Event.rowProps row level true]
    | some dp =>
      match alookup dp level_name with
      | none => [Event.rowProps row level true]
      | some ob =>
        match ob with
        | some b => [Event.rowProps row level b]
        | none => [Event.rowProps row level true]
  else [Event.rowProps row level false]

/-- The loop body of `write_line` for one column: the value write (with
conditional format selection), the link write, the data-validation write and
the row outline/hidden setting, in source order.  The second component is
the ghost list of evaluated format-condition indices. -/
def write_line_col (t : CTable) (row : Nat) (line : Row) (line_header : List String)
    (level : Nat) (level_name col : String) : List Event × List Nat :=
  let v := line.getD (line_header.indexOf col) ""
  let cidx := t.start_col + t.header.indexOf col
  ((value_events t row cidx v level_name col).1 ++
     link_events t row cidx v level_name col ++
     dv_events t row cidx v level_name col ++
     row_props_events t row level level_name,
   (value_events t row cidx v level_name col).2)

/-- A data row written by the traversal (ghost observation). -/
structure LogEntry where
  row : Nat
  level : Nat
  level_name : String
  line : Row
  cols : List String
deriving Repr, DecidableEq, Inhabited

/-- A non-base entry of `_recursive_data_looper` (ghost observation): the
level index, the truncated filter it rendered with, the ancestor key path the
call descends from, and the rows of the dataset it iterates. -/
structure CallEntry where
  pos : Nat
  filt : Filter
  path : Filter
  rows : List Row
deriving Repr, DecidableEq, Inhabited

/-- One evaluated format condition (ghost observation): sheet row, column
name and index in the condition list. -/
structure FmtEval where
  row : Nat
  col : String
  idx : Nat
deriving Repr, DecidableEq, Inhabited

/-- The renderer state: the row cursor plus the event trace and the ghost
observations. -/
structure RState where
  dataRow : Nat
  events : List Event
  log : List LogEntry
  calls : List CallEntry
  fmtEvals : List FmtEval
deriving Repr, Inhabited

/-- All events of one `write_line` call, in column order. -/
def write_line_events (t : CTable) (row : Nat) (line : Row) (line_header : List String)
    (level : Nat) (level_name : String) : List Event :=
  (line_header.map (fun col => (write_line_col t row line line_header level level_name col).1)).flatten

/-- All ghost condition evaluations of one `write_line` call. -/
def write_line_evals (t : CTable) (row : Nat) (line : Row) (line_header : List String)
    (level : Nat) (level_name : String) : List FmtEval :=
  (line_header.map (fun col =>
    (write_line_col t row line line_header level level_name col).2.map
      (fun i => FmtEval.mk row col i))).flatten

/-- Model of the `write_line` closure: emit the events of every column, log
the written row, and advance the row cursor by one. -/
def write_line (t : CTable) (st : RState) (line : Row) (line_header : List String)
    (level : Nat) (level_name : String) : RState :=
  { dataRow := st.dataRow + 1,
    events := st.events ++ write_line_events t st.dataRow line line_header level level_name,
    log := st.log ++ [⟨st.dataRow, level, level_name, line, line_header⟩],
    calls := st.calls,
    fmtEvals := st.fmtEvals ++ write_line_evals t st.dataRow line line_header level level_name }

/-- Python `dict.pop(k)` on the filter (the key is present whenever the
source reaches this call). -/
def pop_key (f : Filter) (k : String) : Filter :=
  match f with
  | [] => []
  | p :: rest => if p.1 == k then rest else p :: pop_key rest k

/-- The `while len(filter.keys()) != position: filter.pop(...)` loop; the
fuel argument (`f.length` at the start) bounds the iterations, which
suffices because each reachable iteration pops one present key. -/
def trunc_go (levels : List String) : Nat → Filter → Nat → Filter
  | 0, f, _ => f
  | n + 1, f, position =>
    if f.length == position then f
    else trunc_go levels n (pop_key f (levels.getD (f.length - 1) "")) position

/-- Truncating the running filter back to `position` entries. -/
def trunc_filter (levels : List String) (f : Filter) (position : Nat) : Filter :=
  trunc_go levels f.length f position

/-- Reading a row's value in a named column. -/
def row_get (cols : List String) (r : Row) (k : String) : Cell :=
  r.getD (cols.indexOf k) ""

/-- The pandas query built by the source: the conjunction, over the filter
entries, of equality between the named column and the quoted value. -/
def query_df (df : DataFrame) (f : Filter) : DataFrame :=
  ⟨df.cols, df.rows.filter (fun r => f.all (fun kv => row_get df.cols r kv.1 == kv.2))⟩

/-- `data_dict[list(data_dict.keys())[position]]`. -/
def full_df (t : CTable) (position : Nat) : DataFrame :=
  (alookup t.data (t.levels.getD position "")).getD ⟨[], []⟩

/-- Record a non-base looper entry (ghost observation). -/
def log_call (st : RState) (pos : Nat) (filt path : Filter) (d : DataFrame) : RState :=
  { st with calls := st.calls ++ [⟨pos, filt, path, d.rows⟩] }

/-- The row iteration of `_recursive_data_looper` at one level.  `child`
performs the recursive descent; it receives the ghost ancestor path, the
updated filter and the state.  The filter is reset at level 0, the current
row's key value is inserted unless this is the deepest level, the descent
runs, and only then is the row itself written (post-order). -/
def row_loop (t : CTable) (pos : Nat) (cols : List String) (path : Filter)
    (child : Filter → Filter → RState → Filter × RState) :
    List Row → Filter → RState → Filter × RState
  | [], f, st => (f, st)
  | line :: rest, f, st =>
    let f1 := if pos = 0 then [] else f
    let key := t.levels.getD pos ""
    let kv := row_get cols line key
    let f2 := if t.levels.length ≠ pos + 1 then dinsert f1 key kv else f1
    let cpath := path ++ (if t.levels.length ≠ pos + 1 then [(key, kv)] else [])
    let r := child cpath f2 st
    let st2 := write_line t r.2 line cols pos key
    row_loop t pos cols path child rest r.1 st2

/-- Model of `_recursive_data_looper`.  The fuel argument (strictly more
than the number of levels on the root call) drives the recursion; the base
case `position = len(levels)` returns without writing.  Before iterating, a
non-base call truncates the filter to `position` entries and renders the
level dataset filtered by the accumulated pairs (or unfiltered when the
filter is empty). -/
def looper (t : CTable) : Nat → Nat → Filter → Filter → RState → Filter × RState
  | 0, _, _, f, st => (f, st)
  | fuel + 1, pos, path, f, st =>
    if t.levels.length = pos then (f, st)
    else
      let f1 := trunc_filter t.levels f pos
      let full := full_df t pos
      let d := if 0 < f1.length then query_df full f1 else full
      let st1 := log_call st pos f1 path d
      row_loop t pos d.cols path
        (fun cpath f2 st2 => looper t fuel (pos + 1) cpath f2 st2) d.rows f1 st1

/-- Model of Python `str.lower`. -/
def py_lower (s : String) : String := String.mk (s.data.map Char.toLower)

/-- The observable outcome of `add_collapsible_table`: layout rows, the full
event trace and the ghost observations. -/
structure RenderResult where
  headerRowUsed : Nat
  dataRowStart : Nat
  totalRowIdx : Nat
  finalDataRow : Nat
  events : List Event
  log : List LogEntry
  calls : List CallEntry
  fmtEvals : List FmtEval
deriving Repr, Inhabited

/-- `_write_total_formula` of `add_collapsible_table`: the whole body sits in
`try: ... except: pass`, so a missing `total_row_values` attribute (no
`add_total` call) or a column absent from the total frame writes nothing. -/
def write_total_formula (t : CTable) (total_row : Nat) (col : String) (formatting : Bool) :
    List Event :=
  match t.total_row_values with
  | none => []
  | some m =>
    match alookup m col with
    | none => []
    | some v =>
      [Event.cell total_row (t.start_col + t.header.indexOf col) v
        (if formatting then
          (match alookup t.total_formats col with
           | some spec => fmt_of_spec spec
           | none => none)
         else none)]

/-- The condition-list arm of the total-row write (again no `break`: every
true condition triggers a formatted write, and a plain write follows if none
was true). -/
def total_cond_loop (t : CTable) (total_row : Nat) (col : String) (colTok : Cell) :
    List CondV → Bool → List Event
  | [], written => if written then [] else write_total_formula t total_row col false
  | c :: rest, written =>
    if c colTok then
      write_total_formula t total_row col true ++ total_cond_loop t total_row col colTok rest true
    else total_cond_loop t total_row col colTok rest written

/-- The `_column_` binding available to total-row conditions: the backticked
column name, or a positional `Column<n>` token when the header is unused. -/
def total_col_tok (t : CTable) (use_header : Option Nat) (col : String) : Cell :=
  match use_header with
  | none => "`Column" ++ toString (t.header.indexOf col + 1) ++ "`"
  | some _ => "`" ++ col ++ "`"

/-- The total-row write for one header column: resolve the total format via
the total conditions (whose `_column_` binding is the column token) and
write the registered total value. -/
def total_col_events (t : CTable) (use_header : Option Nat) (total_row : Nat) (col : String) :
    List Event :=
  if (t.total_formats.map Prod.fst).contains col then
    match (alookup t.total_conditions col).getD PyCondStored.autoviv with
    | .pnone => write_total_formula t total_row col true
    | .cstr c =>
      if c (total_col_tok t use_header col) then write_total_formula t total_row col true
      else write_total_formula t total_row col false
    | .clist cs => total_cond_loop t total_row col (total_col_tok t use_header col) cs false
    | .autoviv => []
  else write_total_formula t total_row col false

/-- The total-row write of `add_collapsible_table`, over all header columns. -/
def total_row_events (t : CTable) (use_header : Option Nat) (total_row : Nat) : List Event :=
  (t.header.map (total_col_events t use_header total_row)).flatten

/-- The header cell writes (`BoldWrapped`), present when a header row is in
use. -/
def header_events (t : CTable) (use_header : Option Nat) (header_row : Nat) : List Event :=
  match use_header with
  | some _ =>
    (List.range t.header.length).map (fun j =>
      Event.cell header_row (t.start_col + j) (t.header.getD j "") (get_excel_format "BoldWrapped"))
  | none => []

/-- The body shared by the `top` and `bottom` cases: header cell writes, the
recursive traversal from the (possibly shifted) data row, then the total-row
write.  Merge/freeze/autofilter/comment calls are not recorded. -/
def render_core (t : CTable) (use_header : Option Nat) (header_row data_row total_row : Nat) :
    RenderResult :=
  let st0 : RState := ⟨data_row, header_events t use_header header_row, [], [], []⟩
  let res := looper t (t.levels.length + 1) 0 [] [] st0
  { headerRowUsed := header_row,
    dataRowStart := data_row,
    totalRowIdx := total_row,
    finalDataRow := res.2.dataRow,
    events := res.2.events ++ total_row_events t use_header total_row,
    log := res.2.log,
    calls := res.2.calls,
    fmtEvals := res.2.fmtEvals }

/-- Model of `ExcelWriter.add_collapsible_table`.  With `top`, the total row
lands on the original header row and the header and data rows are pushed
down by one.  With `bottom`, the source computes
`len(table.data) + table.data_row`, and `table.data` is the dict of level
frames, so this is the data start row plus the NUMBER OF LEVELS.  Any other
setting raises `ValueError`. -/
def add_collapsible_table (t : CTable) : Except String RenderResult :=
  let table_val := py_lower t.total_row
  let use_header := t.header_row
  let header_row0 := match t.header_row with | none => t.data_row | some h => h
  if table_val = "top" then
    Except.ok (render_core t use_header (header_row0 + 1) (t.data_row + 1) header_row0)
  else if table_val = "bottom" then
    Except.ok (render_core t use_header header_row0 t.data_row (t.data.length + t.data_row))
  else Except.error "total_row arguments must be of value top or bottom"

/-- The value writes a trace performs at one cell, in order. -/
def cell_writes_at (evs : List Event) (r c : Nat) : List (Cell × Option String) :=
  evs.filterMap (fun e =>
    match e with
    | .cell r2 c2 v f => if r2 == r && c2 == c then some (v, f) else none
    | _ => none)

/-- The final content of a cell: the last value write to it. -/
def final_cell_at (evs : List Event) (r c : Nat) : Option (Cell × Option String) :=
  (cell_writes_at evs r c).getLast?

/-- The hyperlink writes of a trace. -/
def url_events (evs : List Event) : List Event :=
  evs.filter (fun e => match e with | .url _ _ _ _ => true | _ => false)

/-- Level `Computer Name`: 3 rows. -/
def sampleDF0 : DataFrame :=
  ⟨["Computer Name", "CVE Count"],
   [["PCXNW-JCAPOZZA", "665"], ["PCXNW-BCAPOZZA", "113"], ["PCXNW-JCRUZ", "465"]]⟩

/-- Level `Application Name`: 9 rows. -/
def sampleDF1 : DataFrame :=
  ⟨["Computer Name", "Application Name", "CVE Count"],
   [["PCXNW-JCAPOZZA", ".NET Framework 2.0", "22"],
    ["PCXNW-JCAPOZZA", ".NET x64 6.0", "43"],
    ["PCXNW-JCAPOZZA", "7-Zip 9.20.00.0", "64"],
    ["PCXNW-BCAPOZZA", "ASP .NET Core x64 2.2", "2"],
    ["PCXNW-BCAPOZZA", ".NET x64 6.0", "46"],
    ["PCXNW-BCAPOZZA", "7-Zip 9.20.00.0", "76"],
    ["PCXNW-BCAPOZZA", "MiKTeX 21.8", "45"],
    ["PCXNW-JCRUZ", "7-Zip 9.20.00.0", "78"],
    ["PCXNW-JCRUZ", "ASP .NET Core x64 2.2", "65"]]⟩

/-- Level `CVE ID`: 15 rows. -/
def sampleDF2 : DataFrame :=
  ⟨["Computer Name", "Application Name", "CVE ID", "CVE Count"],
   [["PCXNW-JCAPOZZA", ".NET Framework 2.0", "CVE-2021-1", "1"],
    ["PCXNW-JCAPOZZA", ".NET Framework 2.0", "CVE-2021-2", "1"],
    ["PCXNW-JCAPOZZA", ".NET x64 6.0", "CVE-2021-3", "1"],
    ["PCXNW-JCAPOZZA", ".NET x64 6.0", "CVE-2021-4", "1"],
    ["PCXNW-JCAPOZZA", "7-Zip 9.20.00.0", "CVE-2021-5", "1"],
    ["PCXNW-BCAPOZZA", "ASP .NET Core x64 2.2", "CVE-2021-6", "1"],
    ["PCXNW-BCAPOZZA", "ASP .NET Core x64 2.2", "CVE-2021-7", "1"],
    ["PCXNW-BCAPOZZA", "ASP .NET Core x64 2.2", "CVE-2021-8", "1"],
    ["PCXNW-BCAPOZZA", ".NET x64 6.0", "CVE-2021-9", "1"],
    ["PCXNW-BCAPOZZA", "7-Zip 9.20.00.0", "CVE-2021-10", "1"],
    ["PCXNW-BCAPOZZA", "MiKTeX 21.8", "CVE-2021-11", "1"],
    ["PCXNW-JCRUZ", "7-Zip 9.20.00.0", "CVE-2021-12", "1"],
    ["PCXNW-JCRUZ", "7-Zip 9.20.00.0", "CVE-2021-13", "1"],
    ["PCXNW-JCRUZ", "7-Zip 9.20.00.0", "CVE-2021-14", "1"],
    ["PCXNW-JCRUZ", "ASP .NET Core x64 2.2", "CVE-2021-15", "1"]]⟩

/-- The sample table of `main()`: three levels, a total row placed on top,
total value 8888 formatted Bold in the CVE Count column. -/
def sampleTable : CTable :=
  { header := ["Computer Name", "Application Name", "CVE ID", "CVE Count"],
    data := [("Computer Name", sampleDF0), ("Application Name", sampleDF1), ("CVE ID", sampleDF2)],
    total_row := "top",
    total_formats := [("CVE Count", .sstr "Bold")],
    total_conditions := [("CVE Count", .pnone)],
    total_row_values := some [("Computer Name", "Total Row"), ("CVE Count", "8888")] }

/-- The render of the sample table. -/
def sampleRender : RenderResult :=
  match add_collapsible_table sampleTable with
  | .ok r => r
  | .error _ => default

/-- The same table with the total row configured `bottom` (the scenario of
spec section 8 and claim C8). -/
def sampleTableBottom : CTable := { sampleTable with total_row := "bottom" }

/-- The render of the bottom-total variant. -/
def sampleRenderBottom : RenderResult :=
  match add_collapsible_table sampleTableBottom with
  | .ok r => r
  | .error _ => default

/-- The lines the traversal wrote at a given level, in write order. -/
def level_lines (log : List LogEntry) (lvl : Nat) : List Row :=
  (log.filter (fun e => e.level == lvl)).map (fun e => e.line)

/-- Two row lists contain the same rows with the same multiplicities. -/
def multiset_eq (a b : List Row) : Bool :=
  a.length == b.length && a.all (fun r => a.count r == b.count r)

/-- Post-order check: whenever row k of the log sits at a strictly deeper
level than row j and agrees with row j on every key column of levels
0 .. j.level (row j's ancestor key path, its own key included), row k was
written first. -/
def post_order_ok (levels : List String) (log : List LogEntry) : Bool :=
  (List.range log.length).all (fun j =>
    (List.range log.length).all (fun k =>
      !(decide ((log.getD j default).level < (log.getD k default).level)) ||
      !((List.range ((log.getD j default).level + 1)).all (fun p =>
          row_get (log.getD k default).cols (log.getD k default).line (levels.getD p "") ==
            row_get (log.getD j default).cols (log.getD j default).line (levels.getD p ""))) ||
      decide (k < j)))

/-- A one-level, one-row, one-column table with a parallel format list
`[Bold, Num]` and two conditions that are both always true, registered
through `add_column_formats`. -/
def tC4 : CTable :=
  (add_column_formats tbl0 (.s "L") (.s "A") (.l ["Bold", "Num"])
    (.cl [fun _ => true, fun _ => true])).table

/-- The render of `tC4`. -/
def renderC4 : RenderResult :=
  match add_collapsible_table tC4 with
  | .ok r => r
  | .error _ => default

/-- A one-level table whose only level is named `Computer Name`, with a link
mapping registered at level `Computer Name`, column `CVE Count`, keyed by
the value the single row carries in that column. -/
def tC9 : CTable :=
  CTable.add_links
    { header := ["Computer Name", "CVE Count"],
      data := [("Computer Name", ⟨["Computer Name", "CVE Count"], [["PC1", "665"]]⟩)] }
    "Computer Name" "CVE Count" [("665", "https://vuln.example")]

/-- The render of `tC9`. -/
def renderC9 : RenderResult :=
  match add_collapsible_table tC9 with
  | .ok r => r
  | .error _ => default

/-- A two-column table with format `Bold` on column B and a data-validation
condition list on column B (at level L) whose single condition is always
false. -/
def tC10 : CTable :=
  CTable.add_data_validation
    ((add_column_formats
        { header := ["A", "B"], data := [("L", ⟨["A", "B"], [["a1", "b1"]]⟩)] }
        (.s "L") (.s "B") (.s "Bold") .cnone).table)
    "B" "L" (.cl [fun _ => false])

/-- The render of `tC10`. -/
def renderC10 : RenderResult :=
  match add_collapsible_table tC10 with
  | .ok r => r
  | .error _ => default

/-- `st2` extends `st`: the trace, log, call log and evaluation log only
grow by appending, and the row cursor advances by exactly the number of
newly logged rows, which occupy consecutive sheet rows starting at the old
cursor. -/
def Evolves (st st2 : RState) : Prop :=
  ∃ dl de dc dv,
    st2 = ⟨st.dataRow + dl.length, st.events ++ de, st.log ++ dl, st.calls ++ dc,
           st.fmtEvals ++ dv⟩ ∧
    ∀ i : Nat, ∀ h : i < dl.length, (dl[i]).row = st.dataRow + i

/-- `data_properties[level_name]['hidden']` with default `True`. -/
def dp_hidden (t : CTable) (lname : String) : Bool :=
  match t.data_properties with
  | none => true
  | some dp =>
    match alookup dp lname with
    | some (some b) => b
    | _ => true

/-- The hidden flag the specification describes, as a function of the level
index: `false` at level 0, otherwise `data_properties[levels[lvl]]['hidden']`
with default `true`. -/
def spec_hidden (t : CTable) (lvl : Nat) : Bool :=
  if lvl = 0 then false else dp_hidden t (t.levels.getD lvl "")

/-- The invariant for C3: every `set_row` event in the trace has the
spec-described hidden flag for its level, and comes from a logged row of
that level at that sheet row. -/
def GoodEvents (t : CTable) (st : RState) : Prop :=
  ∀ e ∈ st.events, ∀ r lvl : Nat, ∀ hid : Bool, e = Event.rowProps r lvl hid →
    hid = spec_hidden t lvl ∧ ∃ en ∈ st.log, en.row = r ∧ en.level = lvl

/-- The filter's keys are exactly the first `f.length` level names, in
order: the shape every reachable filter state has. -/
def alignedFrom (ls : List String) (f : Filter) : Prop :=
  f.map Prod.fst = ls.take f.length

/-- The property claim C2 asserts of every recursive call at level 1 or
deeper: the truncated filter IS the ancestor key path (exactly `pos` pairs,
keyed by the first `pos` level names, no sibling leftovers), and the
rendered dataset is the full level dataset filtered by the equality
conjunction over those pairs. -/
def CallOK (t : CTable) (ce : CallEntry) : Prop :=
  1 ≤ ce.pos →
    ce.filt = ce.path ∧
    ce.path.length = ce.pos ∧
    ce.path.map Prod.fst = t.levels.take ce.pos ∧
    ce.rows = (full_df t ce.pos).rows.filter
      (fun r => ce.path.all (fun kv => row_get (full_df t ce.pos).cols r kv.1 == kv.2))

/-- A two-level table for the C2 witness: parent keys `a`, `b`; the child
dataset has two rows under `a` and one under `b`. -/
def tinyTwo : CTable :=
  { header := ["K", "V"],
    data := [("K", ⟨["K"], [["a"], ["b"]]⟩),
             ("V", ⟨["K", "V"], [["a", "1"], ["b", "2"], ["a", "3"]]⟩)] }

/-- The render of `tinyTwo`. -/
def renderTiny : RenderResult :=
  match add_collapsible_table tinyTwo with
  | .ok r => r
  | .error _ => default

/-- The value writes the condition-list loop performs, as (value, format)
pairs: one styled write per true condition, index-aligned. -/
def sel_pairs (spec : PyStyleStored) (v : Cell) : List CondV → Nat → List (Cell × Option String)
  | [], _ => []
  | c :: rest, i => (if c v then [(v, fmt_at spec i)] else []) ++ sel_pairs spec v rest (i + 1)

/-- The column a recorded event touches (`none` for `set_row`). -/
def event_col : Event → Option Nat
  | .cell _ c _ _ => some c
  | .url _ c _ _ => some c
  | .valid _ c => some c
  | .rowProps _ _ _ => none

/-- A table whose single level is named `L` and whose dataset also has a
column named `L`: validation with an always-false condition list registered
at level `L`, column `L`, so the column name is a top-level validation key. -/
def tC10w : CTable :=
  CTable.add_data_validation
    { header := ["L", "X"], data := [("L", ⟨["L", "X"], [["a", "b"]]⟩)] }
    "L" "L" (.cl [fun _ => false])

/-- The (key column, key value) pairs of a data row along the first `n`
grouping levels, read off the row itself. -/
def key_path (levels cols : List String) (line : Row) (n : Nat) : Filter :=
  (List.range n).map (fun p => (levels.getD p "", row_get cols line (levels.getD p "")))

/-- The filter a written row's child level renders with: the row's ancestor
key path, its own key pair included. -/
def child_filter (t : CTable) (e : LogEntry) : Filter :=
  key_path t.levels e.cols e.line (e.level + 1)

/-- Post-order, stated on the write log: before every written row, a written
copy of every row of the next deeper level's dataset filtered by the row's
full ancestor key path already appears in the log. -/
def children_before (t : CTable) (log : List LogEntry) : Prop :=
  ∀ (j : Nat) (hj : j < log.length),
    (log[j]).level + 1 < t.levels.length →
    ∀ r ∈ (query_df (full_df t ((log[j]).level + 1)) (child_filter t (log[j]))).rows,
      ∃ (k : Nat) (hk : k < log.length), k < j ∧
        (log[k]).level = (log[j]).level + 1 ∧ (log[k]).line = r

/-- Claim C6 (code bug).  `Table._convert` is claimed to raise the
count-mismatch error exactly when the placeholder count differs from the
function-list length.  On the template made of a single placeholder and a
one-element function list the placeholder count equals the list length, yet
the code raises the count-mismatch `ValueError`, because it actually compares
the number of non-empty backtick-split parts minus one (here 1 - 1 = 0) with
the list length. -/
theorem c6_count_check_off :
    Table_convert "`A`" "T" (.alist ["SUM"]) = Except.error ConvErr.valueError ∧
    placeholder_count "`A`" = 1 ∧
    (["SUM"] : List String).length = 1 :=
  ⟨rfl, by decide, rfl⟩

/-- For a single-string aggregation name whose registry lookup succeeds, the
conversion loop never raises. -/
theorem conv_loop_astr_ok (tn f : String) (c : Nat) (hc : agg_lookup (py_upper f) = some c) :
    ∀ (ps : List String) (i : Nat) (acc : String),
      ∃ s, conv_loop tn (.astr f) ps i acc = Except.ok s := by
  intro ps
  induction ps with
  | nil => intro i acc; exact ⟨acc, rfl⟩
  | cons p rest ih =>
    intro i acc
    by_cases h : i % 2 == 0
    · simpa [conv_loop, h] using ih (i + 1) (acc ++ p)
    · simpa [conv_loop, h, hc] using
        ih (i + 1) (acc ++ "_xlfn.AGGREGATE(" ++ toString c ++ ", 5, " ++ tn ++ "[" ++ p ++ "])")

/-- In the list form, reaching the odd part position `2 * j + 1` (the j-th
placeholder, which consumes list entry j) when entry j is absent from the
registry and every entry consumed on the way there is registered, the
formula loop raises the unknown-function error naming entry j's upper-cased
token. -/
theorem conv_loop_alist_err (tn : String) (fs : List String) (j : Nat)
    (hbad : agg_lookup (py_upper (fs.getD j "")) = none) (hj : j < fs.length) :
    ∀ (ps : List String) (i : Nat) (acc : String),
      i ≤ 2 * j + 1 → 2 * j + 1 - i < ps.length →
      (∀ m, m < j → i ≤ 2 * m + 1 → ∃ c, agg_lookup (py_upper (fs.getD m "")) = some c) →
      conv_loop tn (.alist fs) ps i acc =
        Except.error (ConvErr.keyError (py_upper (fs.getD j ""))) := by
  intro ps
  induction ps with
  | nil => intro i acc hile hlen hok; simp at hlen
  | cons p rest ih =>
    intro i acc hile hlen hok
    simp only [List.length_cons] at hlen
    by_cases hpar : i % 2 == 0
    · have hp2 : i % 2 = 0 := by simpa using hpar
      have hne : i ≠ 2 * j + 1 := by omega
      rw [conv_loop, if_pos hpar]
      exact ih (i + 1) (acc ++ p) (by omega) (by omega)
        (fun m hm him => hok m hm (by omega))
    · have hp2 : i % 2 = 1 := by simp at hpar; omega
      by_cases hij : i = 2 * j + 1
      · subst hij
        have hdiv : (2 * j + 1) / 2 = j := by omega
        have hgetj : fs[(2 * j + 1) / 2]? = some (fs.getD j "") := by
          rw [hdiv, List.getElem?_eq_getElem hj, List.getD_eq_getElem fs "" hj]
        simp only [conv_loop]
        rw [if_neg hpar]
        simp only [hgetj, hbad]
      · have hmj : i / 2 < j := by omega
        obtain ⟨c, hc⟩ := hok (i / 2) hmj (by omega)
        have hmlt : i / 2 < fs.length := by omega
        have hget : fs[i / 2]? = some (fs.getD (i / 2) "") := by
          rw [List.getElem?_eq_getElem hmlt, List.getD_eq_getElem fs "" hmlt]
        have htail := ih (i + 1)
          (acc ++ "_xlfn.AGGREGATE(" ++ toString c ++ ", 5, " ++ tn ++ "[" ++ p ++ "])")
          (by omega) (by omega) (fun m hm him => hok m hm (by omega))
        simp only [conv_loop]
        rw [if_neg hpar]
        simp only [hget, hc]
        exact htail

/-- Claim C7 (corrected).  An aggregation-function name is looked up
(case-insensitively, in the 19-entry registry) only when a placeholder
consumes it.  A single-string name is consumed as soon as the template has
at least two backtick-split parts, and an absent name then raises the
unknown-function error carrying the upper-cased token; in the list form the
j-th placeholder consumes the j-th entry, and an absent consumed entry
(after registered earlier ones) raises the same error naming its upper-cased
token; with a successful lookup, or with a placeholder-free template, no
error is raised at all; and list entries beyond the consumed placeholders
are never looked up. -/
theorem c7_lookup_on_consumption :
    (∀ (base tn fname : String),
        2 ≤ (py_split_backtick base).length →
        agg_lookup (py_upper fname) = none →
        Table_convert base tn (.astr fname) = Except.error (ConvErr.keyError (py_upper fname))) ∧
    (∀ (base tn : String) (fs : List String) (j : Nat),
        2 * j + 1 < (py_split_backtick base).length →
        (((py_split_backtick base).filter (fun p => !(p == ""))).length : Int) - 1 =
          (fs.length : Int) →
        j < fs.length →
        (∀ m, m < j → ∃ c, agg_lookup (py_upper (fs.getD m "")) = some c) →
        agg_lookup (py_upper (fs.getD j "")) = none →
        Table_convert base tn (.alist fs) =
          Except.error (ConvErr.keyError (py_upper (fs.getD j "")))) ∧
    (∀ (base tn fname : String) (c : Nat),
        agg_lookup (py_upper fname) = some c →
        ∃ s, Table_convert base tn (.astr fname) = Except.ok s) ∧
    (∀ (base tn fname : String),
        (py_split_backtick base).length ≤ 1 →
        ∃ s, Table_convert base tn (.astr fname) = Except.ok s) ∧
    Table_convert "x`A`y`B`z" "T" (.alist ["SUM", "SUM", "BOGUS", "BOGUS"]) =
      Except.ok "=(x_xlfn.AGGREGATE(9, 5, T[A])y_xlfn.AGGREGATE(9, 5, T[B])z)" := by
  refine ⟨?_, ?_, ?_, ?_, rfl⟩
  · intro base tn fname hlen hnone
    rcases hps : py_split_backtick base with _ | ⟨p0, _ | ⟨p1, rest⟩⟩
    · rw [hps] at hlen; simp at hlen
    · rw [hps] at hlen; simp at hlen
    · simp only [Table_convert, hps]
      simp [conv_loop, hnone, Except.map]
  · intro base tn fs j hjlen hcount hjfs hok hbad
    simp only [Table_convert]
    rw [if_neg (not_ne_iff.mpr hcount)]
    rw [conv_loop_alist_err tn fs j hbad hjfs (py_split_backtick base) 0 "=("
      (by omega) (by omega) (fun m hm _ => hok m hm)]
    rfl
  · intro base tn fname c hc
    obtain ⟨s, hs⟩ := conv_loop_astr_ok tn fname c hc (py_split_backtick base) 0 "=("
    exact ⟨s ++ ")", by simp only [Table_convert]; simp [hs, Except.map]⟩
  · intro base tn fname hlen
    rcases hps : py_split_backtick base with _ | ⟨p0, _ | ⟨p1, rest⟩⟩
    · exact ⟨"=()", by simp only [Table_convert, hps]; simp [conv_loop, Except.map]⟩
    · exact ⟨"=(" ++ p0 ++ ")", by simp only [Table_convert, hps]; simp [conv_loop, Except.map]⟩
    · rw [hps] at hlen; simp at hlen

/-- Witness for C7: the amended statement applied at concrete inputs, for
the single-string form and for the list form (second entry BOGUS consumed
by the second placeholder after the registered SUM). -/
theorem c7_lookup_on_consumption_witness :
    Table_convert "`A`" "T" (.astr "BOGUS") =
      Except.error (ConvErr.keyError (py_upper "BOGUS")) ∧
    Table_convert "x`A`y`B`z" "T" (.alist ["SUM", "BOGUS", "X", "Y"]) =
      Except.error (ConvErr.keyError (py_upper (["SUM", "BOGUS", "X", "Y"].getD 1 ""))) :=
  ⟨c7_lookup_on_consumption.1 "`A`" "T" "BOGUS" (by decide) (by decide),
   c7_lookup_on_consumption.2.1 "x`A`y`B`z" "T" ["SUM", "BOGUS", "X", "Y"] 1
     (by decide) (by decide) (by decide)
     (fun m hm => by
       have hm0 : m = 0 := by omega
       subst hm0
       exact ⟨9, by decide⟩)
     (by decide)⟩

/-- Counterexample for C7 as stated: the name BOGUS is not in the registry,
yet the call succeeds, because a placeholder-free template never looks the
name up. -/
theorem c7_unknown_function_counterexample :
    Table_convert "x" "T" (.astr "BOGUS") = Except.ok "=(x)" ∧
    agg_lookup (py_upper "BOGUS") = none :=
  ⟨rfl, by decide⟩

/-- Claim C5 (code bug).  With a format list of length 2 and a condition list
of length 1 the parallel-length check fires, but the raised exception is
swallowed by the bare `except:` of `add_column_formats`, which prints
`error`; the call returns normally with no exception propagating to the
caller.  No format or condition entry is registered (the table is returned
unchanged), which is the only part of the claim the code satisfies. -/
theorem c5_parallel_error_swallowed :
    (add_column_formats tbl0 (.s "L") (.s "A") (.l ["A", "B"]) (.cl [fun _ => true])).exc
        = none ∧
    (add_column_formats tbl0 (.s "L") (.s "A") (.l ["A", "B"]) (.cl [fun _ => true])).printed
        = ["error"] ∧
    (add_column_formats tbl0 (.s "L") (.s "A") (.l ["A", "B"]) (.cl [fun _ => true])).table
        = tbl0 :=
  ⟨rfl, rfl, rfl⟩

/-- Counterexample for C4 as stated.  Both conditions of the list are true;
the claim says the first one selects format `Bold` and the second is never
evaluated.  The ghost evaluation log shows both conditions were evaluated
(indices 0 and 1 at row 2, column A), and the cell's final format is `Num`,
the format of the LAST true condition, not `Bold`. -/
theorem c4_first_match_counterexample :
    renderC4.fmtEvals = [⟨2, "A", 0⟩, ⟨2, "A", 1⟩] ∧
    final_cell_at renderC4.events 2 0 = some ("x", some "Num") ∧
    (some (("x" : Cell), some "Num") : Option (Cell × Option String)) ≠
      some (("x" : Cell), some "Bold") := by
  refine ⟨by decide, by decide, by decide⟩

/-- Claim C9 (code bug).  The mapping `665 -> url` is registered via
`add_links` at level `Computer Name`, column `CVE Count`, and the rendered
row's `CVE Count` cell holds exactly `665`, yet no `write_url` call happens:
the guard `col in table.links.keys()` tests the column name against the
top-level keys of `links` (the LEVEL names), so the registered column
`CVE Count` never passes it. -/
theorem c9_link_guard_skips :
    lookup2 tC9.links "Computer Name" "CVE Count" = some [("665", "https://vuln.example")] ∧
    renderC9.log.map (fun e => row_get e.cols e.line "CVE Count") = ["665"] ∧
    url_events renderC9.events = [] := by
  refine ⟨by decide, by decide, by decide⟩

/-- Counterexample for C10 as stated.  Column B has a registered
data-validation condition list none of whose conditions is true, so the
claim says the cell is re-written plain, overwriting the Bold format.  In
fact the fallthrough branch is guarded by `col in table.data_validation.keys()`,
which tests the column name against the top-level (LEVEL) keys, so for
column B (not a level name) nothing is re-written and the cell keeps its
Bold format. -/
theorem c10_plain_rewrite_counterexample :
    (alookup tC10.data_validation "L").getD [] = ["B"] ∧
    final_cell_at renderC10.events 2 1 = some ("b1", some "Bold") ∧
    (some (("b1" : Cell), some "Bold") : Option (Cell × Option String)) ≠
      some (("b1" : Cell), (none : Option String)) := by
  refine ⟨by decide, by decide, by decide⟩

/-- Claim C8 (code bug).  With `top`, the total row is written at the
original header row (1) and the header and data rows move down by one (to 2
and 3): that half of the claim holds on the sample.  With `bottom`, the 27
data rows occupy sheet rows 2 through 28, so the claim puts the total row at
29; the code computes `len(table.data) + table.data_row` where `table.data`
is the dict of 3 level frames, writing the total (value 8888 styled Bold in
CVE Count, `Total Row` unstyled in Computer Name) at row 5, inside the data
region rather than after it. -/
theorem c8_total_bottom_misplaced :
    (sampleRender.totalRowIdx = 1 ∧ sampleRender.headerRowUsed = 2 ∧
      sampleRender.dataRowStart = 3) ∧
    sampleRenderBottom.dataRowStart = 2 ∧
    sampleRenderBottom.log.getLast?.map (fun e => e.row) = some 28 ∧
    sampleRenderBottom.totalRowIdx = 5 ∧
    sampleRenderBottom.totalRowIdx ≠ 28 + 1 ∧
    final_cell_at sampleRenderBottom.events 5 3 = some ("8888", some "Bold") ∧
    final_cell_at sampleRenderBottom.events 5 0 = some ("Total Row", none) := by
  exact ⟨⟨by decide, by decide, by decide⟩, by decide, by decide, by decide, by decide,
    by decide, by decide⟩

theorem evolves_refl (st : RState) : Evolves st st := by
  refine ⟨[], [], [], [], ?_, ?_⟩
  · simp
  · intro i h; simp at h

theorem evolves_trans {a b c : RState} (h1 : Evolves a b) (h2 : Evolves b c) : Evolves a c := by
  obtain ⟨l1, e1, c1, v1, hb, hrow1⟩ := h1
  obtain ⟨l2, e2, c2, v2, hc, hrow2⟩ := h2
  refine ⟨l1 ++ l2, e1 ++ e2, c1 ++ c2, v1 ++ v2, ?_, ?_⟩
  · rw [hc, hb]
    simp [Nat.add_assoc]
  · intro i h
    rw [List.length_append] at h
    by_cases hi : i < l1.length
    · rw [List.getElem_append_left hi]
      exact hrow1 i hi
    · push_neg at hi
      rw [List.getElem_append_right hi]
      have := hrow2 (i - l1.length) (by omega)
      rw [this, hb]
      simp only [RState.dataRow]
      omega

theorem evolves_write_line (t : CTable) (st : RState) (line : Row) (cols : List String)
    (lvl : Nat) (lname : String) :
    Evolves st (write_line t st line cols lvl lname) := by
  refine ⟨[⟨st.dataRow, lvl, lname, line, cols⟩],
    write_line_events t st.dataRow line cols lvl lname, [],
    write_line_evals t st.dataRow line cols lvl lname, ?_, ?_⟩
  · simp [write_line]
  · intro i h
    simp only [List.length_singleton] at h
    interval_cases i
    simp

theorem evolves_log_call (st : RState) (pos : Nat) (filt path : Filter) (d : DataFrame) :
    Evolves st (log_call st pos filt path d) := by
  refine ⟨[], [], [⟨pos, filt, path, d.rows⟩], [], ?_, ?_⟩
  · simp [log_call]
  · intro i h; simp at h

theorem row_loop_evolves (t : CTable) (pos : Nat) (cols : List String) (path : Filter)
    (child : Filter → Filter → RState → Filter × RState)
    (hchild : ∀ cpath f2 st2, Evolves st2 (child cpath f2 st2).2) :
    ∀ (rows : List Row) (f : Filter) (st : RState),
      Evolves st (row_loop t pos cols path child rows f st).2 := by
  intro rows
  induction rows with
  | nil => intro f st; exact evolves_refl st
  | cons line rest ih =>
    intro f st
    rw [row_loop]
    refine evolves_trans (evolves_trans (hchild _ _ _) (evolves_write_line _ _ _ _ _ _)) (ih _ _)

theorem looper_evolves (t : CTable) :
    ∀ (fuel pos : Nat) (path f : Filter) (st : RState),
      Evolves st (looper t fuel pos path f st).2 := by
  intro fuel
  induction fuel with
  | zero => intro pos path f st; exact evolves_refl st
  | succ n ih =>
    intro pos path f st
    rw [looper]
    by_cases hl : t.levels.length = pos
    · simp only [hl, if_pos rfl]
      exact evolves_refl st
    · simp only [if_neg hl]
      exact evolves_trans (evolves_log_call _ _ _ _ _)
        (row_loop_evolves t pos _ path _ (fun cpath f2 st2 => ih (pos + 1) cpath f2 st2) _ _ _)

theorem render_core_rows (t : CTable) (uh : Option Nat) (hr dr tr : Nat) :
    (render_core t uh hr dr tr).finalDataRow =
      (render_core t uh hr dr tr).dataRowStart + (render_core t uh hr dr tr).log.length ∧
    ∀ i : Nat, ∀ h : i < (render_core t uh hr dr tr).log.length,
      ((render_core t uh hr dr tr).log[i]).row = (render_core t uh hr dr tr).dataRowStart + i := by
  obtain ⟨dl, de, dc, dv, heq, hrow⟩ :=
    looper_evolves t (t.levels.length + 1) 0 [] []
      ⟨dr, header_events t uh hr, [], [], []⟩
  simp only [render_core, heq]
  constructor
  · simp
  · intro i h
    simp only [List.nil_append] at h ⊢
    exact hrow i h

theorem add_collapsible_rows (t : CTable) (res : RenderResult)
    (h : add_collapsible_table t = Except.ok res) :
    res.finalDataRow = res.dataRowStart + res.log.length ∧
    ∀ i : Nat, ∀ hi : i < res.log.length, (res.log[i]).row = res.dataRowStart + i := by
  unfold add_collapsible_table at h
  dsimp only at h
  split_ifs at h with h1 h2
  · injection h with h3
    subst h3
    exact render_core_rows t t.header_row _ _ _
  · injection h with h3
    subst h3
    exact render_core_rows t t.header_row _ _ _

theorem row_props_events_eq (t : CTable) (row lvl : Nat) (lname : String) :
    row_props_events t row lvl lname =
      [Event.rowProps row lvl (if lvl = 0 then false else dp_hidden t lname)] := by
  unfold row_props_events dp_hidden
  by_cases h0 : lvl = 0
  · simp [h0]
  · simp only [if_neg h0, ne_eq, h0, not_false_iff, if_pos, if_true]
    rcases t.data_properties with _ | dp
    · simp
    · rcases halo : alookup dp lname with _ | ob
      · simp [halo]
      · rcases ob with _ | b
        · simp [halo]
        · simp [halo]

theorem fmt_cond_loop_cells (spec : PyStyleStored) (row cidx : Nat) (v : Cell) :
    ∀ (cs : List CondV) (i : Nat) (w : Bool) (e : Event),
      e ∈ (fmt_cond_loop spec row cidx v cs i w).1 → ∃ fm, e = Event.cell row cidx v fm := by
  intro cs
  induction cs with
  | nil =>
    intro i w e he
    by_cases hw : w <;> simp [fmt_cond_loop, hw] at he
    exact ⟨none, he⟩
  | cons c rest ih =>
    intro i w e he
    cases hc : c v with
    | true =>
      simp only [fmt_cond_loop, hc, if_true, List.mem_cons] at he
      rcases he with he | he
      · exact ⟨fmt_at spec i, he⟩
      · exact ih (i + 1) (w || true) e he
    | false =>
      simp only [fmt_cond_loop, hc, if_false, Bool.false_eq_true] at he
      exact ih (i + 1) (w || false) e he

theorem dv_cond_loop_shape (row cidx : Nat) (v : Cell) :
    ∀ (cs : List CondV) (w : Bool) (e : Event),
      e ∈ dv_cond_loop row cidx v cs w →
      e = Event.valid row cidx ∨ e = Event.cell row cidx v none := by
  intro cs
  induction cs with
  | nil =>
    intro w e he
    by_cases hw : w <;> simp [dv_cond_loop, hw] at he
    exact Or.inr he
  | cons c rest ih =>
    intro w e he
    cases hc : c v with
    | true =>
      simp only [dv_cond_loop, hc, if_true, List.mem_cons] at he
      rcases he with he | he
      · exact Or.inl he
      · exact ih true e he
    | false =>
      simp only [dv_cond_loop, hc, if_false, Bool.false_eq_true] at he
      exact ih w e he

theorem value_events_cells (t : CTable) (row cidx : Nat) (v : Cell) (lname col : String)
    (e : Event) (he : e ∈ (value_events t row cidx v lname col).1) :
    ∃ fm, e = Event.cell row cidx v fm := by
  unfold value_events at he
  rcases hspec : lookup2 t.formats lname col with _ | spec
  · simp only [hspec, List.mem_singleton] at he
    exact ⟨none, he⟩
  · rcases hcond : lookup2c t.conditions lname col with _ | _ | c | cs
    · simp only [hspec, hcond, List.mem_singleton] at he
      exact ⟨fmt_of_spec spec, he⟩
    · simp [hspec, hcond] at he
    · cases hc : c v with
      | true =>
        simp only [hspec, hcond, hc, if_true, List.mem_singleton] at he
        exact ⟨fmt_of_spec spec, he⟩
      | false =>
        simp only [hspec, hcond, hc, if_false, Bool.false_eq_true, List.mem_singleton] at he
        exact ⟨none, he⟩
    · simp only [hspec, hcond] at he
      exact fmt_cond_loop_cells spec row cidx v cs 0 false e he

theorem link_events_shape (t : CTable) (row cidx : Nat) (v : Cell) (lname col : String)
    (e : Event) (he : e ∈ link_events t row cidx v lname col) :
    ∃ u, e = Event.url row cidx u v := by
  unfold link_events at he
  by_cases hg : (t.links.map Prod.fst).contains col
  · rcases hm : lookup2 t.links lname col with _ | m
    · simp [hg, hm] at he
    · rcases hu : alookup m v with _ | u
      · simp [hg, hm, hu] at he
      · simp only [hg, hm, hu, if_true, List.mem_singleton] at he
        exact ⟨u, he⟩
  · rw [if_neg hg] at he
    simp at he

theorem dv_events_shape (t : CTable) (row cidx : Nat) (v : Cell) (lname col : String)
    (e : Event) (he : e ∈ dv_events t row cidx v lname col) :
    e = Event.valid row cidx ∨ e = Event.cell row cidx v none := by
  unfold dv_events at he
  rcases hcond : lookup2c t.data_validation_condition lname col with _ | _ | c | cs
  · by_cases hg : ((alookup t.data_validation lname).getD []).contains col
    · simp only [hcond, hg, if_true, List.mem_singleton] at he
      exact Or.inl he
    · simp only [hcond] at he
      rw [if_neg hg] at he
      simp at he
  · simp [hcond] at he
  · by_cases hg : (t.data_validation.map Prod.fst).contains col
    · cases hc : c v with
      | true =>
        simp only [hcond, hg, hc, if_true, List.mem_singleton] at he
        exact Or.inl he
      | false => simp [hcond, hg, hc] at he
    · simp only [hcond] at he
      rw [if_neg hg] at he
      simp at he
  · by_cases hg : (t.data_validation.map Prod.fst).contains col
    · simp only [hcond, hg, if_true] at he
      exact dv_cond_loop_shape row cidx v cs false e he
    · simp only [hcond] at he
      rw [if_neg hg] at he
      simp at he

/-- Every `set_row` event of a `write_line_col` call at level `lvl`, level
name `lname`, has exactly the sheet row, the level and the source-computed
hidden flag. -/
theorem write_line_col_rowProps (t : CTable) (row : Nat) (line : Row)
    (lh : List String) (lvl : Nat) (lname col : String) (e : Event)
    (he : e ∈ (write_line_col t row line lh lvl lname col).1)
    (r lvl2 : Nat) (hid : Bool) (heq : e = Event.rowProps r lvl2 hid) :
    r = row ∧ lvl2 = lvl ∧ hid = (if lvl = 0 then false else dp_hidden t lname) := by
  subst heq
  unfold write_line_col at he
  simp only [List.append_assoc, List.mem_append] at he
  rcases he with he | he | he | he
  · obtain ⟨fm, hfm⟩ := value_events_cells t row _ _ lname col _ he
    exact absurd hfm (by simp)
  · obtain ⟨u, hu⟩ := link_events_shape t row _ _ lname col _ he
    exact absurd hu (by simp)
  · rcases dv_events_shape t row _ _ lname col _ he with h | h
    · exact absurd h (by simp)
    · exact absurd h (by simp)
  · rw [row_props_events_eq] at he
    simp only [List.mem_singleton, Event.rowProps.injEq] at he
    exact ⟨he.1, he.2.1, he.2.2⟩

theorem write_line_good (t : CTable) (st : RState) (line : Row) (cols : List String)
    (pos : Nat) (hg : GoodEvents t st) :
    GoodEvents t (write_line t st line cols pos (t.levels.getD pos "")) := by
  intro e he r lvl hid heq
  simp only [write_line, List.mem_append] at he
  rcases he with h | h
  · obtain ⟨h1, en, hen, h2⟩ := hg e h r lvl hid heq
    exact ⟨h1, en, by simp only [write_line, List.mem_append]; exact Or.inl hen, h2⟩
  · have h4 : ∃ col, col ∈ cols ∧
        e ∈ (write_line_col t st.dataRow line cols pos (t.levels.getD pos "") col).1 := by
      simpa [write_line_events] using h
    obtain ⟨col, _, hel⟩ := h4
    obtain ⟨h1, h2, h3⟩ := write_line_col_rowProps t st.dataRow line cols pos
      (t.levels.getD pos "") col e hel r lvl hid heq
    refine ⟨?_, ⟨st.dataRow, pos, t.levels.getD pos "", line, cols⟩, ?_, h1.symm, h2.symm⟩
    · rw [h3, h2]
      rfl
    · simp [write_line]

theorem log_call_good (t : CTable) (st : RState) (pos : Nat) (filt path : Filter)
    (d : DataFrame) (hg : GoodEvents t st) : GoodEvents t (log_call st pos filt path d) := by
  intro e he r lvl hid heq
  obtain ⟨h1, en, hen, h2⟩ := hg e he r lvl hid heq
  exact ⟨h1, en, hen, h2⟩

theorem row_loop_good (t : CTable) (pos : Nat) (cols : List String) (path : Filter)
    (child : Filter → Filter → RState → Filter × RState)
    (hchild : ∀ cpath f2 st2, GoodEvents t st2 → GoodEvents t (child cpath f2 st2).2) :
    ∀ (rows : List Row) (f : Filter) (st : RState),
      GoodEvents t st → GoodEvents t (row_loop t pos cols path child rows f st).2 := by
  intro rows
  induction rows with
  | nil => intro f st hg; exact hg
  | cons line rest ih =>
    intro f st hg
    rw [row_loop]
    exact ih _ _ (write_line_good t _ line cols pos (hchild _ _ _ hg))

theorem looper_good (t : CTable) :
    ∀ (fuel pos : Nat) (path f : Filter) (st : RState),
      GoodEvents t st → GoodEvents t (looper t fuel pos path f st).2 := by
  intro fuel
  induction fuel with
  | zero => intro pos path f st hg; exact hg
  | succ n ih =>
    intro pos path f st hg
    rw [looper]
    by_cases hl : t.levels.length = pos
    · simp only [hl, if_pos rfl]; exact hg
    · simp only [if_neg hl]
      exact row_loop_good t pos _ path _
        (fun cpath f2 st2 => ih (pos + 1) cpath f2 st2) _ _ _
        (log_call_good t st pos _ path _ hg)

theorem write_total_formula_cells (t : CTable) (tr : Nat) (col : String) (fm : Bool)
    (e : Event) (he : e ∈ write_total_formula t tr col fm) :
    ∃ c2 v f2, e = Event.cell tr c2 v f2 := by
  unfold write_total_formula at he
  rcases hm : t.total_row_values with _ | m
  · simp [hm] at he
  · rcases hv : alookup m col with _ | v
    · simp [hm, hv] at he
    · simp only [hm, hv, List.mem_singleton] at he
      exact ⟨_, _, _, he⟩

theorem total_cond_loop_cells (t : CTable) (tr : Nat) (col : String) (colTok : Cell) :
    ∀ (cs : List CondV) (w : Bool) (e : Event),
      e ∈ total_cond_loop t tr col colTok cs w → ∃ c2 v f2, e = Event.cell tr c2 v f2 := by
  intro cs
  induction cs with
  | nil =>
    intro w e he
    by_cases hw : w <;> simp [total_cond_loop, hw] at he
    exact write_total_formula_cells t tr col false e he
  | cons c rest ih =>
    intro w e he
    simp only [total_cond_loop] at he
    by_cases hc : c colTok
    · simp only [hc, if_true, List.mem_append] at he
      rcases he with he | he
      · exact write_total_formula_cells t tr col true e he
      · exact ih true e he
    · simp only [hc, if_false, Bool.false_eq_true] at he
      exact ih w e he

theorem total_col_events_cells (t : CTable) (uh : Option Nat) (tr : Nat) (col : String)
    (e : Event) (hel : e ∈ total_col_events t uh tr col) :
    ∃ c2 v f2, e = Event.cell tr c2 v f2 := by
  unfold total_col_events at hel
  by_cases hg : (t.total_formats.map Prod.fst).contains col
  · rw [if_pos hg] at hel
    rcases hc0 : (alookup t.total_conditions col).getD PyCondStored.autoviv with _ | _ | c | cs
    · rw [hc0] at hel
      exact write_total_formula_cells t tr col true e hel
    · rw [hc0] at hel
      simp at hel
    · simp only [hc0] at hel
      cases hcv : c (total_col_tok t uh col) with
      | false =>
        simp only [hcv, Bool.false_eq_true, if_false] at hel
        exact write_total_formula_cells t tr col false e hel
      | true =>
        simp only [hcv, if_true] at hel
        exact write_total_formula_cells t tr col true e hel
    · rw [hc0] at hel
      exact total_cond_loop_cells t tr col _ cs false e hel
  · rw [if_neg hg] at hel
    exact write_total_formula_cells t tr col false e hel

theorem total_row_events_cells (t : CTable) (uh : Option Nat) (tr : Nat)
    (e : Event) (he : e ∈ total_row_events t uh tr) :
    ∃ c2 v f2, e = Event.cell tr c2 v f2 := by
  have h4 : ∃ col, col ∈ t.header ∧ e ∈ total_col_events t uh tr col := by
    simpa [total_row_events] using he
  obtain ⟨col, _, hel⟩ := h4
  exact total_col_events_cells t uh tr col e hel

theorem render_core_good (t : CTable) (uh : Option Nat) (hr dr tr : Nat) :
    ∀ e ∈ (render_core t uh hr dr tr).events, ∀ r lvl : Nat, ∀ hid : Bool,
      e = Event.rowProps r lvl hid →
      hid = spec_hidden t lvl ∧
      ∃ en ∈ (render_core t uh hr dr tr).log, en.row = r ∧ en.level = lvl := by
  intro e he r lvl hid heq
  have hst0 : GoodEvents t ⟨dr, header_events t uh hr, [], [], []⟩ := by
    intro e2 he2 r2 lvl2 hid2 heq2
    unfold header_events at he2
    rcases uh with _ | u
    · simp at he2
    · simp only [List.mem_map, List.mem_range] at he2
      obtain ⟨j, _, hj⟩ := he2
      rw [heq2] at hj
      exact absurd hj (by simp)
  have hg := looper_good t (t.levels.length + 1) 0 [] [] _ hst0
  simp only [render_core, List.mem_append] at he
  rcases he with he | he
  · obtain ⟨h1, en, hen, h2⟩ := hg e he r lvl hid heq
    exact ⟨h1, en, by simpa [render_core] using hen, h2⟩
  · obtain ⟨c2, v2, f2, hcell⟩ := total_row_events_cells t uh tr e he
    rw [heq] at hcell
    exact absurd hcell (by simp)

/-- Claim C3 (confirmed).  Every `set_row` event the renderer emits for a
data row carries outline level equal to the 0-based index of the grouping
level the row's data came from (the level of the logged row at that sheet
row), hidden `false` at level 0, and otherwise the hidden flag of
`data_properties[levelName]['hidden']` when that entry exists, with default
hidden `true`. -/
theorem c3_outline_hidden :
    ∀ (t : CTable) (res : RenderResult), add_collapsible_table t = Except.ok res →
    ∀ e ∈ res.events, ∀ r lvl : Nat, ∀ hid : Bool, e = Event.rowProps r lvl hid →
      hid = spec_hidden t lvl ∧ ∃ en ∈ res.log, en.row = r ∧ en.level = lvl := by
  intro t res h
  unfold add_collapsible_table at h
  dsimp only at h
  split_ifs at h with h1 h2
  · injection h with h3
    subst h3
    exact render_core_good t t.header_row _ _ _
  · injection h with h3
    subst h3
    exact render_core_good t t.header_row _ _ _

/-- Witness for C3: the theorem applied to the first `set_row` event of the
sample render (sheet row 3, a CVE-level row: level 2, hidden). -/
theorem c3_outline_hidden_witness :
    true = spec_hidden sampleTable 2 ∧
    ∃ en ∈ sampleRender.log, en.row = 3 ∧ en.level = 2 :=
  c3_outline_hidden sampleTable sampleRender rfl (Event.rowProps 3 2 true)
    (by decide) 3 2 true rfl

theorem alignedFrom_nil (ls : List String) : alignedFrom ls [] := by
  simp [alignedFrom]

theorem alignedFrom_cons {ls : List String} {l0 : String} {ls' : List String}
    {k : String} {v : Cell} {f : Filter} (h : ls = l0 :: ls') :
    alignedFrom ls ((k, v) :: f) ↔ k = l0 ∧ alignedFrom ls' f := by
  subst h
  simp [alignedFrom]

theorem alignedFrom_cons_ne_nil {k : String} {v : Cell} {f : Filter}
    (h : alignedFrom [] ((k, v) :: f)) : False := by
  simp [alignedFrom] at h

theorem alignedFrom_length_le {ls : List String} {f : Filter} (h : alignedFrom ls f) :
    f.length ≤ ls.length := by
  have := congrArg List.length h
  simp only [List.length_map, List.length_take] at this
  omega

theorem alignedFrom_take {ls : List String} {f : Filter} (h : alignedFrom ls f) (n : Nat) :
    alignedFrom ls (f.take n) := by
  unfold alignedFrom at h ⊢
  rw [List.map_take, h, List.take_take, List.length_take]

theorem pop_key_last :
    ∀ (f : Filter) (ls : List String), ls.Nodup → alignedFrom ls f → 0 < f.length →
      pop_key f (ls.getD (f.length - 1) "") = f.dropLast := by
  intro f
  induction f with
  | nil => intro ls _ _ h0; simp at h0
  | cons p f' ih =>
    intro ls hnd hal h0
    obtain ⟨k0, v0⟩ := p
    rcases ls with _ | ⟨l0, ls'⟩
    · exact (alignedFrom_cons_ne_nil hal).elim
    · rw [alignedFrom_cons rfl] at hal
      obtain ⟨hk0, hal2⟩ := hal
      rcases f' with _ | ⟨q, f2⟩
      · subst hk0
        simp [pop_key]
      · have hlen : ((k0, v0) :: q :: f2).length - 1 = f2.length + 1 := by simp
        rw [hlen]
        have hgd : (l0 :: ls').getD (f2.length + 1) "" = ls'.getD f2.length "" := by
          simp
        rw [hgd]
        have hlt : f2.length < ls'.length := by
          have := alignedFrom_length_le hal2
          simp at this
          omega
        have hmem : ls'.getD f2.length "" ∈ ls' := by
          rw [List.getD_eq_getElem ls' "" hlt]
          exact List.getElem_mem hlt
        have hnotmem : l0 ∉ ls' := (List.nodup_cons.1 hnd).1
        have hne : (k0 == ls'.getD f2.length "") = false := by
          subst hk0
          simp only [beq_eq_false_iff_ne, ne_eq]
          intro hcontra
          exact hnotmem (hcontra ▸ hmem)
        show pop_key ((k0, v0) :: q :: f2) (ls'.getD f2.length "") = _
        rw [pop_key]
        simp only [hne, Bool.false_eq_true, if_false]
        have hih := ih ls' (List.nodup_cons.1 hnd).2 hal2 (by simp)
        have hlen2 : (q :: f2).length - 1 = f2.length := by simp
        rw [hlen2] at hih
        rw [hih]
        rfl

theorem trunc_go_take :
    ∀ (fuel : Nat) (f : Filter) (ls : List String) (pos : Nat),
      ls.Nodup → alignedFrom ls f → pos ≤ f.length → f.length ≤ fuel + pos →
      trunc_go ls fuel f pos = f.take pos := by
  intro fuel
  induction fuel with
  | zero =>
    intro f ls pos _ _ hle hge
    have : f.length = pos := by omega
    rw [trunc_go]
    rw [List.take_of_length_le (by omega)]
  | succ n ih =>
    intro f ls pos hnd hal hle hge
    rw [trunc_go]
    by_cases hlp : f.length = pos
    · rw [if_pos (by simpa using hlp)]
      rw [List.take_of_length_le (by omega)]
    · rw [if_neg (by simpa using hlp)]
      have h0 : 0 < f.length := by omega
      rw [pop_key_last f ls hnd hal h0]
      have hdl : f.dropLast = f.take (f.length - 1) := List.dropLast_eq_take f
      have hal2 : alignedFrom ls f.dropLast := by
        rw [hdl]; exact alignedFrom_take hal _
      have := ih f.dropLast ls pos hnd hal2
        (by rw [hdl]; simp [List.length_take]; omega)
        (by rw [hdl]; simp [List.length_take]; omega)
      rw [this, hdl, List.take_take]
      congr 1
      omega

theorem trunc_filter_take (ls : List String) (f : Filter) (pos : Nat)
    (hnd : ls.Nodup) (hal : alignedFrom ls f) (hle : pos ≤ f.length) :
    trunc_filter ls f pos = f.take pos :=
  trunc_go_take f.length f ls pos hnd hal hle (by omega)

theorem dinsert_aligned (v : Cell) :
    ∀ (f : Filter) (ls : List String) (pos : Nat),
      ls.Nodup → alignedFrom ls f → pos ≤ f.length → pos < ls.length →
      alignedFrom ls (dinsert f (ls.getD pos "") v) ∧
      (dinsert f (ls.getD pos "") v).take pos = f.take pos ∧
      (dinsert f (ls.getD pos "") v).take (pos + 1) = f.take pos ++ [(ls.getD pos "", v)] ∧
      pos + 1 ≤ (dinsert f (ls.getD pos "") v).length := by
  intro f
  induction f with
  | nil =>
    intro ls pos hnd hal hle hlt
    have hpos : pos = 0 := by simp at hle; omega
    subst hpos
    rcases ls with _ | ⟨l0, ls'⟩
    · simp at hlt
    · refine ⟨?_, by simp [dinsert], by simp [dinsert], by simp [dinsert]⟩
      show alignedFrom (l0 :: ls') [((l0 :: ls').getD 0 "", v)]
      rw [alignedFrom_cons rfl]
      exact ⟨by simp, alignedFrom_nil ls'⟩
  | cons p f' ih =>
    intro ls pos hnd hal hle hlt
    obtain ⟨k0, v0⟩ := p
    rcases ls with _ | ⟨l0, ls'⟩
    · exact (alignedFrom_cons_ne_nil hal).elim
    · rw [alignedFrom_cons rfl] at hal
      obtain ⟨hk0, hal2⟩ := hal
      rcases pos with _ | q
      · have hk : ((l0 :: ls').getD 0 "") = l0 := by simp
        subst hk0
        rw [hk]
        have heq : dinsert ((k0, v0) :: f') k0 v = (k0, v) :: f' := by
          rw [dinsert]
          simp
        rw [heq]
        refine ⟨?_, by simp, by simp, by simp⟩
        rw [alignedFrom_cons rfl]
        exact ⟨rfl, hal2⟩
      · have hk : ((l0 :: ls').getD (q + 1) "") = ls'.getD q "" := by simp
        rw [hk]
        have hqlt : q < ls'.length := by simpa using hlt
        have hmem : ls'.getD q "" ∈ ls' := by
          rw [List.getD_eq_getElem ls' "" hqlt]
          exact List.getElem_mem hqlt
        have hnotmem : l0 ∉ ls' := (List.nodup_cons.1 hnd).1
        have hne : (k0 == ls'.getD q "") = false := by
          subst hk0
          simp only [beq_eq_false_iff_ne, ne_eq]
          intro hcontra
          exact hnotmem (hcontra ▸ hmem)
        have heq : dinsert ((k0, v0) :: f') (ls'.getD q "") v =
            (k0, v0) :: dinsert f' (ls'.getD q "") v := by
          rw [dinsert]
          simp only [hne, Bool.false_eq_true, if_false]
        rw [heq]
        obtain ⟨ha, hb, hc, hd⟩ := ih ls' q (List.nodup_cons.1 hnd).2 hal2
          (by simpa using hle) hqlt
        refine ⟨?_, ?_, ?_, by simpa using hd⟩
        · rw [alignedFrom_cons rfl]
          exact ⟨hk0, ha⟩
        · simp only [List.take_succ_cons]
          rw [hb]
        · simp only [List.take_succ_cons]
          rw [hc]
          rfl

theorem write_line_calls (t : CTable) (st : RState) (line : Row) (cols : List String)
    (lvl : Nat) (lname : String) : (write_line t st line cols lvl lname).calls = st.calls := rfl

theorem take_pos_of_take_succ {α : Type} {g h2 p : List α} {pos : Nat}
    (hg : g.take (pos + 1) = h2.take (pos + 1)) (hh : h2.take pos = p) :
    g.take pos = p := by
  have h1 : g.take pos = (g.take (pos + 1)).take pos := by
    rw [List.take_take]
    congr 1
    omega
  rw [h1, hg, List.take_take]
  have h3 : pos ⊓ (pos + 1) = pos := by omega
  rw [h3, hh]

theorem le_length_of_take_eq {α : Type} {g p : List α} {pos : Nat}
    (h : g.take pos = p) (hp : p.length = pos) : pos ≤ g.length := by
  have := congrArg List.length h
  simp only [List.length_take] at this
  omega

theorem row_loop_inv (t : CTable) (hnd : t.levels.Nodup) (pos : Nat)
    (hpos : pos < t.levels.length) (cols : List String) (path : Filter)
    (child : Filter → Filter → RState → Filter × RState)
    (hchild : ∀ cpath f2 st2,
        alignedFrom t.levels f2 →
        (pos + 1 < t.levels.length → (f2.take (pos + 1) = cpath ∧ pos + 1 ≤ f2.length)) →
        (∀ ce ∈ st2.calls, CallOK t ce) →
        alignedFrom t.levels (child cpath f2 st2).1 ∧
        (child cpath f2 st2).1.take (pos + 1) = f2.take (pos + 1) ∧
        (∀ ce ∈ (child cpath f2 st2).2.calls, CallOK t ce)) :
    ∀ (rows : List Row) (f : Filter) (st : RState),
      alignedFrom t.levels f → f.take pos = path → pos ≤ f.length →
      (∀ ce ∈ st.calls, CallOK t ce) →
      alignedFrom t.levels (row_loop t pos cols path child rows f st).1 ∧
      (row_loop t pos cols path child rows f st).1.take pos = path ∧
      (∀ ce ∈ (row_loop t pos cols path child rows f st).2.calls, CallOK t ce) := by
  intro rows
  induction rows with
  | nil => intro f st hal htake hlen hcalls; exact ⟨hal, htake, hcalls⟩
  | cons line rest ih =>
    intro f st hal htake hlen hcalls
    have hplen : path.length = pos := by
      rw [← htake]
      simp only [List.length_take]
      omega
    -- the filter after the level-0 reset
    have hf1 : alignedFrom t.levels (if pos = 0 then ([] : Filter) else f) ∧
        (if pos = 0 then ([] : Filter) else f).take pos = path ∧
        pos ≤ (if pos = 0 then ([] : Filter) else f).length := by
      by_cases h0 : pos = 0
      · subst h0
        simp only [if_pos rfl]
        refine ⟨alignedFrom_nil _, ?_, by omega⟩
        rw [← htake]
        simp
      · simp only [if_neg h0]
        exact ⟨hal, htake, hlen⟩
    obtain ⟨hal1, htake1, hlen1⟩ := hf1
    by_cases hins : t.levels.length = pos + 1
    · -- deepest level: no insert, ghost path unchanged
      simp only [row_loop, hins, ne_eq, not_true_eq_false, if_false, List.append_nil]
      obtain ⟨hca, hcb, hcc⟩ := hchild path (if pos = 0 then ([] : Filter) else f) st hal1
        (by intro hcl; omega) hcalls
      have htk := take_pos_of_take_succ hcb htake1
      exact ih _ _ hca htk (le_length_of_take_eq htk hplen)
        (by rw [write_line_calls]; exact hcc)
    · -- not the deepest level: insert the key value, extend the ghost path
      simp only [row_loop, ne_eq, hins, not_false_iff, if_pos, if_true]
      obtain ⟨hda, hdb, hdc, hdd⟩ := dinsert_aligned (row_get cols line (t.levels.getD pos ""))
        (if pos = 0 then ([] : Filter) else f) t.levels pos hnd hal1 hlen1 (by omega)
      obtain ⟨hca, hcb, hcc⟩ := hchild
        (path ++ [(t.levels.getD pos "", row_get cols line (t.levels.getD pos ""))])
        (dinsert (if pos = 0 then ([] : Filter) else f) (t.levels.getD pos "")
          (row_get cols line (t.levels.getD pos "")))
        st hda
        (by
          intro hcl
          refine ⟨?_, hdd⟩
          rw [hdc, htake1])
        hcalls
      have htk := take_pos_of_take_succ hcb (hdb.trans htake1)
      exact ih _ _ hca htk (le_length_of_take_eq htk hplen)
        (by rw [write_line_calls]; exact hcc)

theorem looper_inv (t : CTable) (hnd : t.levels.Nodup) :
    ∀ (fuel pos : Nat) (path f : Filter) (st : RState),
      pos ≤ t.levels.length →
      alignedFrom t.levels f →
      (pos < t.levels.length → (f.take pos = path ∧ pos ≤ f.length)) →
      (∀ ce ∈ st.calls, CallOK t ce) →
      alignedFrom t.levels (looper t fuel pos path f st).1 ∧
      (looper t fuel pos path f st).1.take pos = f.take pos ∧
      (∀ ce ∈ (looper t fuel pos path f st).2.calls, CallOK t ce) := by
  intro fuel
  induction fuel with
  | zero => intro pos path f st _ hal _ hcalls; exact ⟨hal, rfl, hcalls⟩
  | succ n ih =>
    intro pos path f st hple hal hpre hcalls
    by_cases hl : t.levels.length = pos
    · rw [looper]
      simp only [hl, if_pos rfl]
      exact ⟨hal, rfl, hcalls⟩
    · simp only [looper, if_neg hl]
      have hplt : pos < t.levels.length := by omega
      obtain ⟨hfp, hflen⟩ := hpre hplt
      have hf1 : trunc_filter t.levels f pos = f.take pos :=
        trunc_filter_take t.levels f pos hnd hal hflen
      rw [hf1, hfp]
      have halp : alignedFrom t.levels path := hfp ▸ alignedFrom_take hal pos
      have hkeys : path.map Prod.fst = t.levels.take pos := by
        rw [← hfp, List.map_take, hal, List.take_take]
        congr 1
        omega
      have hplen : path.length = pos := by
        rw [← hfp]
        simp only [List.length_take]
        omega
      have hcallsOK : ∀ ce ∈ (log_call st pos path path
          (if 0 < path.length then query_df (full_df t pos) path else full_df t pos)).calls,
          CallOK t ce := by
        intro ce hce
        simp only [log_call, List.mem_append, List.mem_singleton] at hce
        rcases hce with hce | hce
        · exact hcalls ce hce
        · subst hce
          intro hpos1
          have hp1 : 1 ≤ pos := hpos1
          have hlen0 : 0 < path.length := by omega
          refine ⟨rfl, hplen, hkeys, ?_⟩
          simp only [if_pos hlen0, query_df]
      exact row_loop_inv t hnd pos hplt
        (if 0 < path.length then query_df (full_df t pos) path else full_df t pos).cols path
        (fun cpath f2 st2 => looper t n (pos + 1) cpath f2 st2)
        (fun cpath f2 st2 hal2 hpre2 hcalls2 =>
          ih (pos + 1) cpath f2 st2 (by omega) hal2 hpre2 hcalls2)
        (if 0 < path.length then query_df (full_df t pos) path else full_df t pos).rows
        path _
        halp (List.take_of_length_le (by omega)) (by omega) hcallsOK

theorem render_core_calls (t : CTable) (hnd : t.levels.Nodup) (uh : Option Nat)
    (hr dr tr : Nat) : ∀ ce ∈ (render_core t uh hr dr tr).calls, CallOK t ce := by
  have h := looper_inv t hnd (t.levels.length + 1) 0 [] []
    ⟨dr, header_events t uh hr, [], [], []⟩
    (by omega) (alignedFrom_nil _) (fun _ => ⟨rfl, by omega⟩) (by intro ce hce; simp at hce)
  intro ce hce
  exact h.2.2 ce (by simpa [render_core] using hce)

/-- Claim C2 (confirmed).  Every recursive call of the traversal at a level
index 1 or greater renders with a filter that is EXACTLY the ancestor key
path: it has exactly `pos` entries, keyed by the first `pos` level names in
order (any deeper entries left over from a sibling subtree were truncated
away), and the dataset it iterates is the level's full dataset filtered by
the equality conjunction over those ancestor (level-key-column, value)
pairs. -/
theorem c2_filter_conjunction :
    ∀ (t : CTable) (res : RenderResult),
      t.levels.Nodup →
      add_collapsible_table t = Except.ok res →
      ∀ ce ∈ res.calls, 1 ≤ ce.pos →
        ce.filt = ce.path ∧
        ce.path.length = ce.pos ∧
        ce.path.map Prod.fst = t.levels.take ce.pos ∧
        ce.rows = (full_df t ce.pos).rows.filter
          (fun r => ce.path.all (fun kv => row_get (full_df t ce.pos).cols r kv.1 == kv.2)) := by
  intro t res hnd h
  unfold add_collapsible_table at h
  dsimp only at h
  split_ifs at h with h1 h2
  · injection h with h3
    subst h3
    exact render_core_calls t hnd t.header_row _ _ _
  · injection h with h3
    subst h3
    exact render_core_calls t hnd t.header_row _ _ _

/-- Witness for C2: the theorem applied to the second call entry of the
tiny two-level render (the level-1 call under parent key `a`). -/
theorem c2_filter_conjunction_witness :
    (renderTiny.calls.getD 1 default).filt = (renderTiny.calls.getD 1 default).path ∧
    (renderTiny.calls.getD 1 default).path.length = (renderTiny.calls.getD 1 default).pos ∧
    (renderTiny.calls.getD 1 default).path.map Prod.fst =
      tinyTwo.levels.take (renderTiny.calls.getD 1 default).pos ∧
    (renderTiny.calls.getD 1 default).rows =
      (full_df tinyTwo (renderTiny.calls.getD 1 default).pos).rows.filter
        (fun r => (renderTiny.calls.getD 1 default).path.all
          (fun kv =>
            row_get (full_df tinyTwo (renderTiny.calls.getD 1 default).pos).cols r kv.1
              == kv.2)) :=
  c2_filter_conjunction tinyTwo renderTiny (by decide) rfl
    (renderTiny.calls.getD 1 default) (by decide) (by decide)

theorem level_lines_append (a b : List LogEntry) (lvl : Nat) :
    level_lines (a ++ b) lvl = level_lines a lvl ++ level_lines b lvl := by
  simp [level_lines]

theorem level_lines_cons (e : LogEntry) (s : List LogEntry) (lvl : Nat) :
    level_lines (e :: s) lvl =
      (if e.level == lvl then [e.line] else []) ++ level_lines s lvl := by
  simp only [level_lines, List.filter_cons]
  by_cases h : e.level == lvl
  · simp [h]
  · simp [h]

theorem level_lines_nil_of_deeper (seg : List LogEntry) (lvl : Nat)
    (h : ∀ e ∈ seg, lvl < e.level) : level_lines seg lvl = [] := by
  have hf : seg.filter (fun e => e.level == lvl) = [] := by
    rw [List.filter_eq_nil_iff]
    intro e he
    have := h e he
    simp only [beq_iff_eq]
    omega
  simp [level_lines, hf]

theorem calls_filter_nil_of_deeper (cseg : List CallEntry) (lvl : Nat)
    (h : ∀ c ∈ cseg, lvl < c.pos) : cseg.filter (fun c => c.pos == lvl) = [] := by
  rw [List.filter_eq_nil_iff]
  intro c hc
  have := h c hc
  simp only [beq_iff_eq]
  omega

theorem row_loop_step (t : CTable) (pos : Nat) (cols : List String) (path : Filter)
    (child : Filter → Filter → RState → Filter × RState)
    (line : Row) (rest : List Row) (f : Filter) (st : RState) :
    ∃ cpath f2,
      row_loop t pos cols path child (line :: rest) f st =
        row_loop t pos cols path child rest (child cpath f2 st).1
          (write_line t (child cpath f2 st).2 line cols pos (t.levels.getD pos "")) :=
  ⟨_, _, rfl⟩

theorem row_loop_emit (t : CTable) (pos : Nat) (cols : List String) (path : Filter)
    (child : Filter → Filter → RState → Filter × RState)
    (hchild : ∀ cpath f2 st2, ∃ lseg cseg,
        (child cpath f2 st2).2.log = st2.log ++ lseg ∧
        (child cpath f2 st2).2.calls = st2.calls ++ cseg ∧
        (∀ e ∈ lseg, pos + 1 ≤ e.level) ∧
        (∀ c ∈ cseg, pos + 1 ≤ c.pos) ∧
        (∀ lvl, level_lines lseg lvl =
          ((cseg.filter (fun c => c.pos == lvl)).map (fun c => c.rows)).flatten)) :
    ∀ (rows : List Row) (f : Filter) (st : RState), ∃ lseg cseg,
      (row_loop t pos cols path child rows f st).2.log = st.log ++ lseg ∧
      (row_loop t pos cols path child rows f st).2.calls = st.calls ++ cseg ∧
      (∀ e ∈ lseg, pos ≤ e.level) ∧
      (∀ c ∈ cseg, pos + 1 ≤ c.pos) ∧
      level_lines lseg pos = rows ∧
      (∀ lvl, lvl ≠ pos → level_lines lseg lvl =
        ((cseg.filter (fun c => c.pos == lvl)).map (fun c => c.rows)).flatten) := by
  intro rows
  induction rows with
  | nil =>
    intro f st
    refine ⟨[], [], by simp [row_loop], by simp [row_loop], ?_, ?_, ?_, ?_⟩
    · intro e he; simp at he
    · intro c hc; simp at hc
    · simp [level_lines]
    · intro lvl _; simp [level_lines]
  | cons line rest ih =>
    intro f st
    obtain ⟨cpath, f2, hstep⟩ := row_loop_step t pos cols path child line rest f st
    rw [hstep]
    obtain ⟨clseg, ccseg, hclog, hccalls, hclev, hcpos, hcemit⟩ := hchild cpath f2 st
    obtain ⟨lseg2, cseg2, h2log, h2calls, h2lev, h2pos, h2emit0, h2emit⟩ :=
      ih (child cpath f2 st).1
        (write_line t (child cpath f2 st).2 line cols pos (t.levels.getD pos ""))
    refine ⟨clseg ++ ⟨(child cpath f2 st).2.dataRow, pos, t.levels.getD pos "", line, cols⟩ ::
      lseg2, ccseg ++ cseg2, ?_, ?_, ?_, ?_, ?_, ?_⟩
    · rw [h2log]
      simp only [write_line]
      rw [hclog]
      simp [List.append_assoc]
    · rw [h2calls, write_line_calls, hccalls, List.append_assoc]
    · intro e he
      simp only [List.mem_append, List.mem_cons] at he
      rcases he with he | he | he
      · exact Nat.le_of_succ_le (hclev e he)
      · subst he; exact Nat.le_refl pos
      · exact h2lev e he
    · intro c hc
      rcases List.mem_append.1 hc with hc | hc
      · exact hcpos c hc
      · exact h2pos c hc
    · rw [level_lines_append, level_lines_cons, level_lines_nil_of_deeper clseg pos hclev]
      simp [h2emit0]
    · intro lvl hlvl
      rw [level_lines_append, level_lines_cons]
      rw [hcemit lvl, h2emit lvl hlvl, List.filter_append, List.map_append, List.flatten_append]
      have hne : ((⟨(child cpath f2 st).2.dataRow, pos, t.levels.getD pos "", line, cols⟩ :
          LogEntry).level == lvl) = false := by
        simp only [beq_eq_false_iff_ne, ne_eq]
        intro hcontra
        exact hlvl hcontra.symm
      rw [hne]
      simp

theorem looper_emit (t : CTable) :
    ∀ (fuel pos : Nat) (path f : Filter) (st : RState), ∃ lseg cseg,
      (looper t fuel pos path f st).2.log = st.log ++ lseg ∧
      (looper t fuel pos path f st).2.calls = st.calls ++ cseg ∧
      (∀ e ∈ lseg, pos ≤ e.level) ∧
      (∀ c ∈ cseg, pos ≤ c.pos) ∧
      (∀ lvl, level_lines lseg lvl =
        ((cseg.filter (fun c => c.pos == lvl)).map (fun c => c.rows)).flatten) := by
  intro fuel
  induction fuel with
  | zero =>
    intro pos path f st
    refine ⟨[], [], by simp [looper], by simp [looper], ?_, ?_, ?_⟩
    · intro e he; simp at he
    · intro c hc; simp at hc
    · intro lvl; simp [level_lines]
  | succ n ih =>
    intro pos path f st
    by_cases hl : t.levels.length = pos
    · rw [looper]
      simp only [hl, if_pos rfl]
      refine ⟨[], [], by simp, by simp, ?_, ?_, ?_⟩
      · intro e he; simp at he
      · intro c hc; simp at hc
      · intro lvl; simp [level_lines]
    · simp only [looper, if_neg hl]
      obtain ⟨lseg, cseg, hlog, hcalls, hlev, hpos2, hemit0, hemit⟩ :=
        row_loop_emit t pos
          (if 0 < (trunc_filter t.levels f pos).length
            then query_df (full_df t pos) (trunc_filter t.levels f pos) else full_df t pos).cols
          path (fun cpath f2 st2 => looper t n (pos + 1) cpath f2 st2)
          (fun cpath f2 st2 => ih (pos + 1) cpath f2 st2)
          (if 0 < (trunc_filter t.levels f pos).length
            then query_df (full_df t pos) (trunc_filter t.levels f pos) else full_df t pos).rows
          (trunc_filter t.levels f pos)
          (log_call st pos (trunc_filter t.levels f pos) path
            (if 0 < (trunc_filter t.levels f pos).length
              then query_df (full_df t pos) (trunc_filter t.levels f pos) else full_df t pos))
      refine ⟨lseg, ⟨pos, trunc_filter t.levels f pos, path,
        (if 0 < (trunc_filter t.levels f pos).length
          then query_df (full_df t pos) (trunc_filter t.levels f pos)
          else full_df t pos).rows⟩ :: cseg, ?_, ?_, hlev, ?_, ?_⟩
      · rw [hlog]
        rfl
      · rw [hcalls]
        simp [log_call, List.append_assoc]
      · intro c hc
        rcases List.mem_cons.1 hc with hc | hc
        · subst hc; exact Nat.le_refl pos
        · exact Nat.le_of_succ_le (hpos2 c hc)
      · intro lvl
        by_cases hlp : lvl = pos
        · subst hlp
          rw [hemit0]
          rw [List.filter_cons, calls_filter_nil_of_deeper cseg lvl hpos2]
          simp
        · rw [hemit lvl (fun hcontra => hlp hcontra)]
          rw [List.filter_cons]
          have hne : ((⟨pos, trunc_filter t.levels f pos, path,
              (if 0 < (trunc_filter t.levels f pos).length
                then query_df (full_df t pos) (trunc_filter t.levels f pos)
                else full_df t pos).rows⟩ : CallEntry).pos == lvl) = false := by
            simp only [beq_eq_false_iff_ne, ne_eq]
            intro hcontra
            exact hlp hcontra.symm
          rw [hne]
          simp

theorem render_core_emit (t : CTable) (uh : Option Nat) (hr dr tr : Nat) (lvl : Nat) :
    level_lines (render_core t uh hr dr tr).log lvl =
      (((render_core t uh hr dr tr).calls.filter (fun c => c.pos == lvl)).map
        (fun c => c.rows)).flatten := by
  obtain ⟨lseg, cseg, hlog, hcalls, _, _, hemit⟩ :=
    looper_emit t (t.levels.length + 1) 0 [] [] ⟨dr, header_events t uh hr, [], [], []⟩
  simp only [render_core]
  rw [hlog, hcalls]
  simpa using hemit lvl

theorem key_path_zero (levels cols : List String) (line : Row) :
    key_path levels cols line 0 = [] := rfl

theorem key_path_succ (levels cols : List String) (line : Row) (n : Nat) :
    key_path levels cols line (n + 1) =
      key_path levels cols line n ++
        [(levels.getD n "", row_get cols line (levels.getD n ""))] := by
  simp [key_path, List.range_succ]

theorem key_path_of_filter (levels cols : List String) (line : Row) (path : Filter)
    (hkeys : path.map Prod.fst = levels.take path.length)
    (hlen : path.length ≤ levels.length)
    (hsat : path.all (fun kv => row_get cols line kv.1 == kv.2) = true) :
    key_path levels cols line path.length = path := by
  apply List.ext_getElem
  · simp [key_path]
  · intro i h1 h2
    have hip : i < path.length := h2
    have hil : i < levels.length := by omega
    have h3 : (path.map Prod.fst).getD i "" = (levels.take path.length).getD i "" := by
      rw [hkeys]
    rw [List.getD_eq_getElem _ "" (by simpa using hip),
      List.getD_eq_getElem _ "" (by simp; omega)] at h3
    simp only [List.getElem_map, List.getElem_take] at h3
    have hkey : path[i].1 = levels.getD i "" := by
      rw [List.getD_eq_getElem levels "" hil]
      exact h3
    have hval : row_get cols line path[i].1 = path[i].2 := by
      have h4 := List.all_eq_true.1 hsat path[i] (List.getElem_mem hip)
      simpa using h4
    simp only [key_path, List.getElem_map, List.getElem_range]
    rw [← hkey, hval]

theorem query_df_nil (df : DataFrame) : (query_df df []).rows = df.rows := by
  simp [query_df]

theorem children_before_nil (t : CTable) : children_before t [] := by
  intro j hj
  simp at hj

theorem children_before_snoc (t : CTable) (L : List LogEntry) (e : LogEntry)
    (h : children_before t L)
    (he : e.level + 1 < t.levels.length →
      ∀ r ∈ (query_df (full_df t (e.level + 1)) (child_filter t e)).rows,
        ∃ (k : Nat) (hk : k < L.length), (L[k]).level = e.level + 1 ∧ (L[k]).line = r) :
    children_before t (L ++ [e]) := by
  intro j hj hlt r hr
  by_cases hjL : j < L.length
  · have hLj : (L ++ [e])[j] = L[j] := List.getElem_append_left hjL
    rw [hLj] at hlt hr
    obtain ⟨k, hk, hkj, hlev, hline⟩ := h j hjL hlt r hr
    refine ⟨k, ?_, hkj, ?_, ?_⟩
    · simp only [List.length_append, List.length_singleton]
      omega
    · rw [List.getElem_append_left hk, hLj]
      exact hlev
    · rw [List.getElem_append_left hk]
      exact hline
  · have hje : j = L.length := by
      simp only [List.length_append, List.length_singleton] at hj
      omega
    have hLj : (L ++ [e])[j] = e := by
      subst hje
      simp
    rw [hLj] at hlt hr
    obtain ⟨k, hk, hlev, hline⟩ := he hlt r hr
    refine ⟨k, ?_, by omega, ?_, ?_⟩
    · simp only [List.length_append, List.length_singleton]
      omega
    · rw [List.getElem_append_left hk, hLj]
      exact hlev
    · rw [List.getElem_append_left hk]
      exact hline

theorem row_loop_post (t : CTable) (hnd : t.levels.Nodup) (pos : Nat)
    (hpos : pos < t.levels.length) (cols : List String) (path : Filter)
    (child : Filter → Filter → RState → Filter × RState)
    (hchild : ∀ cpath f2 st2,
        alignedFrom t.levels f2 →
        (pos + 1 < t.levels.length → (f2.take (pos + 1) = cpath ∧ pos + 1 ≤ f2.length)) →
        children_before t st2.log →
        alignedFrom t.levels (child cpath f2 st2).1 ∧
        (child cpath f2 st2).1.take (pos + 1) = f2.take (pos + 1) ∧
        children_before t (child cpath f2 st2).2.log ∧
        ∃ cseg, (child cpath f2 st2).2.log = st2.log ++ cseg ∧
          (∀ e ∈ cseg, pos + 1 ≤ e.level) ∧
          (pos + 1 < t.levels.length →
            ∀ r ∈ (query_df (full_df t (pos + 1)) cpath).rows,
              ∃ e ∈ cseg, e.level = pos + 1 ∧ e.line = r)) :
    ∀ (rows : List Row) (f : Filter) (st : RState),
      alignedFrom t.levels f → f.take pos = path → pos ≤ f.length →
      (∀ line ∈ rows, key_path t.levels cols line pos = path) →
      children_before t st.log →
      alignedFrom t.levels (row_loop t pos cols path child rows f st).1 ∧
      (row_loop t pos cols path child rows f st).1.take pos = path ∧
      children_before t (row_loop t pos cols path child rows f st).2.log ∧
      ∃ seg, (row_loop t pos cols path child rows f st).2.log = st.log ++ seg ∧
        (∀ e ∈ seg, pos ≤ e.level) ∧
        (∀ line ∈ rows, ∃ e ∈ seg, e.level = pos ∧ e.line = line) := by
  intro rows
  induction rows with
  | nil =>
    intro f st hal htake hlen hrows hcb
    refine ⟨hal, htake, hcb, [], by simp [row_loop], ?_, ?_⟩
    · intro e he; simp at he
    · intro l hl; simp at hl
  | cons line rest ih =>
    intro f st hal htake hlen hrows hcb
    have hplen : path.length = pos := by
      rw [← htake]
      simp only [List.length_take]
      omega
    have hf1 : alignedFrom t.levels (if pos = 0 then ([] : Filter) else f) ∧
        (if pos = 0 then ([] : Filter) else f).take pos = path ∧
        pos ≤ (if pos = 0 then ([] : Filter) else f).length := by
      by_cases h0 : pos = 0
      · subst h0
        simp only [if_pos rfl]
        refine ⟨alignedFrom_nil _, ?_, by omega⟩
        rw [← htake]
        simp
      · simp only [if_neg h0]
        exact ⟨hal, htake, hlen⟩
    obtain ⟨hal1, htake1, hlen1⟩ := hf1
    by_cases hins : t.levels.length = pos + 1
    · -- deepest level: no key insertion, and no deeper rows are required
      simp only [row_loop, hins, ne_eq, not_true_eq_false, if_false, List.append_nil]
      obtain ⟨hca, hcb2, hccb, cseg, hclog, hclev, _⟩ :=
        hchild path (if pos = 0 then ([] : Filter) else f) st hal1 (by intro hcl; omega) hcb
      have htk := take_pos_of_take_succ hcb2 htake1
      have hwlog : (write_line t (child path (if pos = 0 then ([] : Filter) else f) st).2
          line cols pos (t.levels.getD pos "")).log =
          (st.log ++ cseg) ++
            [⟨(child path (if pos = 0 then ([] : Filter) else f) st).2.dataRow, pos,
              t.levels.getD pos "", line, cols⟩] := by
        simp only [write_line]
        rw [hclog]
      have hcbw : children_before t (write_line t
          (child path (if pos = 0 then ([] : Filter) else f) st).2
          line cols pos (t.levels.getD pos "")).log := by
        rw [hwlog]
        refine children_before_snoc t (st.log ++ cseg) _ ?_ ?_
        · rw [← hclog]
          exact hccb
        · intro hbad
          have hbad2 : pos + 1 < t.levels.length := hbad
          exact absurd hbad2 (by omega)
      obtain ⟨ha2, ht2, hcb3, seg2, hlog2, hlev2, hemit2⟩ :=
        ih (child path (if pos = 0 then ([] : Filter) else f) st).1
          (write_line t (child path (if pos = 0 then ([] : Filter) else f) st).2
            line cols pos (t.levels.getD pos ""))
          hca htk (le_length_of_take_eq htk hplen)
          (fun l hl => hrows l (List.mem_cons_of_mem _ hl))
          hcbw
      refine ⟨ha2, ht2, hcb3, cseg ++
        ⟨(child path (if pos = 0 then ([] : Filter) else f) st).2.dataRow, pos,
          t.levels.getD pos "", line, cols⟩ :: seg2, ?_, ?_, ?_⟩
      · rw [hlog2, hwlog]
        simp [List.append_assoc]
      · intro e he
        simp only [List.mem_append, List.mem_cons] at he
        rcases he with he | he | he
        · exact Nat.le_of_succ_le (hclev e he)
        · subst he
          exact Nat.le_refl pos
        · exact hlev2 e he
      · intro l hl
        rcases List.mem_cons.1 hl with hl | hl
        · subst hl
          exact ⟨⟨(child path (if pos = 0 then ([] : Filter) else f) st).2.dataRow, pos,
            t.levels.getD pos "", l, cols⟩, by simp, rfl, rfl⟩
        · obtain ⟨e, hemem, helev, heline⟩ := hemit2 l hl
          exact ⟨e, by simp [hemem], helev, heline⟩
    · -- the key value is inserted and the child call writes this row's children first
      simp only [row_loop, ne_eq, hins, not_false_iff, if_pos, if_true]
      have hilt : pos + 1 < t.levels.length := by omega
      obtain ⟨hda, hdb, hdc, hdd⟩ := dinsert_aligned (row_get cols line (t.levels.getD pos ""))
        (if pos = 0 then ([] : Filter) else f) t.levels pos hnd hal1 hlen1 (by omega)
      obtain ⟨hca, hcb2, hccb, cseg, hclog, hclev, hcemit⟩ :=
        hchild
          (path ++ [(t.levels.getD pos "", row_get cols line (t.levels.getD pos ""))])
          (dinsert (if pos = 0 then ([] : Filter) else f) (t.levels.getD pos "")
            (row_get cols line (t.levels.getD pos "")))
          st hda
          (by
            intro hcl
            refine ⟨?_, hdd⟩
            rw [hdc, htake1])
          hcb
      have htk := take_pos_of_take_succ hcb2 (hdb.trans htake1)
      have hwlog : (write_line t (child
          (path ++ [(t.levels.getD pos "", row_get cols line (t.levels.getD pos ""))])
          (dinsert (if pos = 0 then ([] : Filter) else f) (t.levels.getD pos "")
            (row_get cols line (t.levels.getD pos ""))) st).2
          line cols pos (t.levels.getD pos "")).log =
          (st.log ++ cseg) ++
            [⟨(child
              (path ++ [(t.levels.getD pos "", row_get cols line (t.levels.getD pos ""))])
              (dinsert (if pos = 0 then ([] : Filter) else f) (t.levels.getD pos "")
                (row_get cols line (t.levels.getD pos ""))) st).2.dataRow, pos,
              t.levels.getD pos "", line, cols⟩] := by
        simp only [write_line]
        rw [hclog]
      have hcf : child_filter t
          (⟨(child
            (path ++ [(t.levels.getD pos "", row_get cols line (t.levels.getD pos ""))])
            (dinsert (if pos = 0 then ([] : Filter) else f) (t.levels.getD pos "")
              (row_get cols line (t.levels.getD pos ""))) st).2.dataRow, pos,
            t.levels.getD pos "", line, cols⟩ : LogEntry) =
          path ++ [(t.levels.getD pos "", row_get cols line (t.levels.getD pos ""))] := by
        show key_path t.levels cols line (pos + 1) = _
        rw [key_path_succ, hrows line (List.mem_cons_self line rest)]
      have hcbw : children_before t (write_line t (child
          (path ++ [(t.levels.getD pos "", row_get cols line (t.levels.getD pos ""))])
          (dinsert (if pos = 0 then ([] : Filter) else f) (t.levels.getD pos "")
            (row_get cols line (t.levels.getD pos ""))) st).2
          line cols pos (t.levels.getD pos "")).log := by
        rw [hwlog]
        refine children_before_snoc t (st.log ++ cseg) _ ?_ ?_
        · rw [← hclog]
          exact hccb
        · intro hlt r hr
          rw [hcf] at hr
          obtain ⟨e2, he2, he2lev, he2line⟩ := hcemit hilt r hr
          obtain ⟨k, hk, hLk⟩ := List.getElem_of_mem (List.mem_append.mpr (Or.inr he2))
          refine ⟨k, hk, ?_, ?_⟩
          · rw [hLk]
            exact he2lev
          · rw [hLk]
            exact he2line
      obtain ⟨ha2, ht2, hcb3, seg2, hlog2, hlev2, hemit2⟩ :=
        ih (child
            (path ++ [(t.levels.getD pos "", row_get cols line (t.levels.getD pos ""))])
            (dinsert (if pos = 0 then ([] : Filter) else f) (t.levels.getD pos "")
              (row_get cols line (t.levels.getD pos ""))) st).1
          (write_line t (child
            (path ++ [(t.levels.getD pos "", row_get cols line (t.levels.getD pos ""))])
            (dinsert (if pos = 0 then ([] : Filter) else f) (t.levels.getD pos "")
              (row_get cols line (t.levels.getD pos ""))) st).2
            line cols pos (t.levels.getD pos ""))
          hca htk (le_length_of_take_eq htk hplen)
          (fun l hl => hrows l (List.mem_cons_of_mem _ hl))
          hcbw
      refine ⟨ha2, ht2, hcb3, cseg ++
        ⟨(child
          (path ++ [(t.levels.getD pos "", row_get cols line (t.levels.getD pos ""))])
          (dinsert (if pos = 0 then ([] : Filter) else f) (t.levels.getD pos "")
            (row_get cols line (t.levels.getD pos ""))) st).2.dataRow, pos,
          t.levels.getD pos "", line, cols⟩ :: seg2, ?_, ?_, ?_⟩
      · rw [hlog2, hwlog]
        simp [List.append_assoc]
      · intro e he
        simp only [List.mem_append, List.mem_cons] at he
        rcases he with he | he | he
        · exact Nat.le_of_succ_le (hclev e he)
        · subst he
          exact Nat.le_refl pos
        · exact hlev2 e he
      · intro l hl
        rcases List.mem_cons.1 hl with hl | hl
        · rw [hl]
          exact ⟨⟨(child
            (path ++ [(t.levels.getD pos "", row_get cols line (t.levels.getD pos ""))])
            (dinsert (if pos = 0 then ([] : Filter) else f) (t.levels.getD pos "")
              (row_get cols line (t.levels.getD pos ""))) st).2.dataRow, pos,
            t.levels.getD pos "", line, cols⟩, by simp, rfl, rfl⟩
        · obtain ⟨e, hemem, helev, heline⟩ := hemit2 l hl
          exact ⟨e, by simp [hemem], helev, heline⟩

theorem looper_post (t : CTable) (hnd : t.levels.Nodup) :
    ∀ (fuel pos : Nat) (path f : Filter) (st : RState),
      pos ≤ t.levels.length →
      t.levels.length ≤ pos + fuel →
      alignedFrom t.levels f →
      (pos < t.levels.length → (f.take pos = path ∧ pos ≤ f.length)) →
      children_before t st.log →
      alignedFrom t.levels (looper t fuel pos path f st).1 ∧
      (looper t fuel pos path f st).1.take pos = f.take pos ∧
      children_before t (looper t fuel pos path f st).2.log ∧
      ∃ seg, (looper t fuel pos path f st).2.log = st.log ++ seg ∧
        (∀ e ∈ seg, pos ≤ e.level) ∧
        (pos < t.levels.length →
          ∀ r ∈ (query_df (full_df t pos) (f.take pos)).rows,
            ∃ e ∈ seg, e.level = pos ∧ e.line = r) := by
  intro fuel
  induction fuel with
  | zero =>
    intro pos path f st hple hfuel hal hpre hcb
    refine ⟨hal, rfl, hcb, [], by simp [looper], ?_, ?_⟩
    · intro e he; simp at he
    · intro hplt
      omega
  | succ n ih =>
    intro pos path f st hple hfuel hal hpre hcb
    by_cases hl : t.levels.length = pos
    · rw [looper]
      simp only [hl, if_pos rfl]
      refine ⟨hal, rfl, hcb, [], by simp, ?_, ?_⟩
      · intro e he; simp at he
      · intro hplt
        omega
    · simp only [looper, if_neg hl]
      have hplt : pos < t.levels.length := by omega
      obtain ⟨hfp, hflen⟩ := hpre hplt
      have hf1 : trunc_filter t.levels f pos = f.take pos :=
        trunc_filter_take t.levels f pos hnd hal hflen
      rw [hf1, hfp]
      have halp : alignedFrom t.levels path := hfp ▸ alignedFrom_take hal pos
      have hkeys : path.map Prod.fst = t.levels.take pos := by
        rw [← hfp, List.map_take, hal, List.take_take]
        congr 1
        omega
      have hplen : path.length = pos := by
        rw [← hfp]
        simp only [List.length_take]
        omega
      have hrows : ∀ l ∈ (if 0 < path.length then query_df (full_df t pos) path
          else full_df t pos).rows,
          key_path t.levels (if 0 < path.length then query_df (full_df t pos) path
            else full_df t pos).cols l pos = path := by
        by_cases hp0 : 0 < path.length
        · simp only [if_pos hp0]
          intro l hlmem
          have hm := List.mem_filter.1 hlmem
          have hkp := key_path_of_filter t.levels (full_df t pos).cols l path
            (by rw [hplen]; exact hkeys) (by omega) hm.2
          rw [hplen] at hkp
          exact hkp
        · simp only [if_neg hp0]
          intro l hlmem
          have hpe : path = [] := List.eq_nil_of_length_eq_zero (by omega)
          have hp0e : pos = 0 := by omega
          rw [hp0e, key_path_zero, hpe]
      have hcbs : children_before t (log_call st pos path path
          (if 0 < path.length then query_df (full_df t pos) path else full_df t pos)).log :=
        hcb
      obtain ⟨ha2, ht2, hcb2, seg, hlog, hlev, hemit⟩ :=
        row_loop_post t hnd pos hplt
          (if 0 < path.length then query_df (full_df t pos) path else full_df t pos).cols
          path (fun cpath f2 st2 => looper t n (pos + 1) cpath f2 st2)
          (fun cpath f2 st2 hal2 hpre2 hcb3 => by
            obtain ⟨xa, xb, xc, xseg, x1, x2, x3⟩ :=
              ih (pos + 1) cpath f2 st2 (by omega) (by omega) hal2 hpre2 hcb3
            refine ⟨xa, xb, xc, xseg, x1, x2, ?_⟩
            intro hlt r hr
            exact x3 hlt r (by rw [(hpre2 hlt).1]; exact hr))
          (if 0 < path.length then query_df (full_df t pos) path else full_df t pos).rows
          path
          (log_call st pos path path
            (if 0 < path.length then query_df (full_df t pos) path else full_df t pos))
          halp (List.take_of_length_le (by omega)) (by omega) hrows hcbs
      refine ⟨ha2, ?_, hcb2, seg, ?_, hlev, ?_⟩
      · rw [ht2]
      · rw [hlog]
        rfl
      · intro hplt2 r hr
        have hrd : r ∈ (if 0 < path.length then query_df (full_df t pos) path
            else full_df t pos).rows := by
          by_cases hp0 : 0 < path.length
          · rw [if_pos hp0]
            exact hr
          · rw [if_neg hp0]
            have hpe : path = [] := List.eq_nil_of_length_eq_zero (by omega)
            rw [hpe, query_df_nil] at hr
            exact hr
        exact hemit r hrd

theorem render_core_children (t : CTable) (hnd : t.levels.Nodup) (uh : Option Nat)
    (hr dr tr : Nat) : children_before t (render_core t uh hr dr tr).log := by
  have h := looper_post t hnd (t.levels.length + 1) 0 [] []
    ⟨dr, header_events t uh hr, [], [], []⟩ (by omega) (by omega)
    (alignedFrom_nil _) (fun _ => ⟨rfl, by omega⟩) (children_before_nil t)
  exact h.2.2.1

/-- Claim C1 (confirmed).  For every table accepted by
`add_collapsible_table`: the row cursor advances by exactly one per written
row (the final cursor is the start cursor plus the number of logged rows,
and the i-th logged row sits at sheet row start + i); the emission is
exactly-once — at every level, the rows written at that level are exactly
the concatenation, in traversal order, of the datasets of the recursive
calls at that level, each dataset row written once, and (with distinct
level names, the Python dict-key invariant) each such call's dataset is the
level's full dataset filtered by the equality conjunction over its ancestor
key path; and the order is post-order — before every written row, a
written copy of every row of the next deeper level's dataset filtered by
the row's full ancestor key path (its own key included) already appears in
the log, whence, iterating downward, all its filtered descendants precede
it.  In particular, on the 3-level sample dataset exactly 27 data rows are
written, the rows logged at each level are exactly that level's dataset
rows (each exactly once), and the full log passes the post-order check. -/
theorem c1_postorder_and_count :
    (∀ (t : CTable) (res : RenderResult),
        add_collapsible_table t = Except.ok res →
        (res.finalDataRow = res.dataRowStart + res.log.length ∧
          ∀ i : Nat, ∀ hi : i < res.log.length, (res.log[i]).row = res.dataRowStart + i) ∧
        (∀ lvl : Nat, level_lines res.log lvl =
          ((res.calls.filter (fun c => c.pos == lvl)).map (fun c => c.rows)).flatten) ∧
        (t.levels.Nodup →
          (∀ ce ∈ res.calls, CallOK t ce) ∧ children_before t res.log)) ∧
    sampleRender.log.length = 27 ∧
    post_order_ok sampleTable.levels sampleRender.log = true ∧
    multiset_eq (level_lines sampleRender.log 0) sampleDF0.rows = true ∧
    multiset_eq (level_lines sampleRender.log 1) sampleDF1.rows = true ∧
    multiset_eq (level_lines sampleRender.log 2) sampleDF2.rows = true := by
  refine ⟨?_, by decide, by decide, by decide, by decide, by decide⟩
  intro t res h
  have hcur := add_collapsible_rows t res h
  unfold add_collapsible_table at h
  dsimp only at h
  split_ifs at h with h1 h2
  · injection h with h3
    subst h3
    exact ⟨hcur, fun lvl => render_core_emit t t.header_row _ _ _ lvl,
      fun hnd => ⟨render_core_calls t hnd t.header_row _ _ _,
        render_core_children t hnd t.header_row _ _ _⟩⟩
  · injection h with h3
    subst h3
    exact ⟨hcur, fun lvl => render_core_emit t t.header_row _ _ _ lvl,
      fun hnd => ⟨render_core_calls t hnd t.header_row _ _ _,
        render_core_children t hnd t.header_row _ _ _⟩⟩

/-- Witness for C1: the general part applied to the sample table — the
cursor arithmetic and the per-level emission at the deepest level. -/
theorem c1_postorder_and_count_witness :
    sampleRender.finalDataRow = sampleRender.dataRowStart + sampleRender.log.length ∧
    level_lines sampleRender.log 2 =
      ((sampleRender.calls.filter (fun c => c.pos == 2)).map (fun c => c.rows)).flatten :=
  ⟨((c1_postorder_and_count.1 sampleTable sampleRender rfl).1).1,
   (c1_postorder_and_count.1 sampleTable sampleRender rfl).2.1 2⟩

theorem cell_writes_at_append (evs1 evs2 : List Event) (r c : Nat) :
    cell_writes_at (evs1 ++ evs2) r c = cell_writes_at evs1 r c ++ cell_writes_at evs2 r c := by
  simp [cell_writes_at]

theorem cell_writes_at_cell (r c : Nat) (v : Cell) (fm : Option String) :
    cell_writes_at [Event.cell r c v fm] r c = [(v, fm)] := by
  simp [cell_writes_at]

/-- All format conditions in the list are evaluated, in order: no break. -/
theorem fmt_cond_loop_evals (spec : PyStyleStored) (row cidx : Nat) (v : Cell) :
    ∀ (cs : List CondV) (i : Nat) (w : Bool),
      (fmt_cond_loop spec row cidx v cs i w).2 = List.range' i cs.length := by
  intro cs
  induction cs with
  | nil => intro i w; simp [fmt_cond_loop]
  | cons c rest ih =>
    intro i w
    rw [fmt_cond_loop]
    by_cases hc : c v
    · simp only [hc, if_true, List.length_cons, List.range'_succ]
      rw [ih]
    · simp only [hc, if_false, Bool.false_eq_true, List.length_cons, List.range'_succ]
      rw [ih]

/-- The cell writes of the condition-list loop: the index-aligned styled
writes of the true conditions, followed by a plain write when the flag was
clear and every condition is false. -/
theorem fmt_cond_loop_writes (spec : PyStyleStored) (row cidx : Nat) (v : Cell) :
    ∀ (cs : List CondV) (i : Nat) (w : Bool),
      cell_writes_at (fmt_cond_loop spec row cidx v cs i w).1 row cidx =
        sel_pairs spec v cs i ++
          (if w = false ∧ (∀ c ∈ cs, c v = false) then [(v, (none : Option String))] else []) := by
  intro cs
  induction cs with
  | nil =>
    intro i w
    cases w with
    | false => simp [fmt_cond_loop, sel_pairs, cell_writes_at]
    | true => simp [fmt_cond_loop, sel_pairs, cell_writes_at]
  | cons c rest ih =>
    intro i w
    rw [fmt_cond_loop]
    cases hc : c v with
    | true =>
      simp only [if_true]
      have : cell_writes_at
          (Event.cell row cidx v (fmt_at spec i) :: (fmt_cond_loop spec row cidx v rest (i + 1) (w || true)).1)
          row cidx =
          (v, fmt_at spec i) :: cell_writes_at (fmt_cond_loop spec row cidx v rest (i + 1) (w || true)).1 row cidx := by
        simp [cell_writes_at]
      rw [this, ih]
      simp only [Bool.or_true, sel_pairs, hc, if_true]
      simp [hc]
    | false =>
      simp only [Bool.false_eq_true, if_false]
      rw [ih]
      simp only [Bool.or_false, sel_pairs, hc, Bool.false_eq_true, if_false, List.nil_append]
      congr 1
      by_cases hw : w = false ∧ ∀ c2 ∈ rest, c2 v = false
      · rw [if_pos hw, if_pos ⟨hw.1, by simpa [hc] using hw.2⟩]
      · rw [if_neg hw, if_neg (by
          intro hcontra
          exact hw ⟨hcontra.1, fun c2 hc2 => hcontra.2 c2 (List.mem_cons_of_mem c hc2)⟩)]

theorem sel_pairs_eq_nil (spec : PyStyleStored) (v : Cell) :
    ∀ (cs : List CondV) (i : Nat), (∀ c ∈ cs, c v = false) → sel_pairs spec v cs i = [] := by
  intro cs
  induction cs with
  | nil => intro i _; rfl
  | cons c rest ih =>
    intro i hall
    rw [sel_pairs]
    rw [hall c (List.mem_cons_self c rest)]
    simp only [Bool.false_eq_true, if_false, List.nil_append]
    exact ih (i + 1) (fun c2 hc2 => hall c2 (List.mem_cons_of_mem c hc2))

/-- The last styled write of the loop is the one selected by the LAST true
condition. -/
theorem sel_pairs_getLast (spec : PyStyleStored) (v : Cell) :
    ∀ (cs : List CondV) (i j : Nat), j < cs.length →
      ((cs.getD j (fun _ => false)) v = true) →
      (∀ k, j < k → k < cs.length → (cs.getD k (fun _ => false)) v = false) →
      (sel_pairs spec v cs i).getLast? = some (v, fmt_at spec (i + j)) := by
  intro cs
  induction cs with
  | nil => intro i j hj; simp at hj
  | cons c rest ih =>
    intro i j hj htrue hlater
    rcases j with _ | q
    · have hcv : c v = true := by simpa using htrue
      have htail : ∀ c2 ∈ rest, c2 v = false := by
        intro c2 hc2
        obtain ⟨k, hk, hkeq⟩ := List.mem_iff_getElem.1 hc2
        have := hlater (k + 1) (by omega) (by simpa using hk)
        rw [List.getD_cons_succ, List.getD_eq_getElem rest _ hk, hkeq] at this
        exact this
      rw [sel_pairs, hcv]
      simp only [if_true, sel_pairs_eq_nil spec v rest (i + 1) htail, List.append_nil]
      simp
    · have htr : (rest.getD q (fun _ => false)) v = true := by simpa using htrue
      have hlat : ∀ k, q < k → k < rest.length → (rest.getD k (fun _ => false)) v = false := by
        intro k hk1 hk2
        have := hlater (k + 1) (by omega) (by simpa using hk2)
        rwa [List.getD_cons_succ] at this
      have htail := ih (i + 1) q (by simpa using hj) htr hlat
      have hne : sel_pairs spec v rest (i + 1) ≠ [] := by
        intro hcontra
        rw [hcontra] at htail
        simp at htail
      rw [sel_pairs, List.getLast?_append_of_ne_nil _ hne, htail]
      have harith : i + 1 + q = i + (q + 1) := by omega
      rw [harith]

theorem link_events_empty (t : CTable) (row cidx : Nat) (v : Cell) (lname col : String)
    (hlink : (t.links.map Prod.fst).contains col = false) :
    link_events t row cidx v lname col = [] := by
  unfold link_events
  simp only [hlink, Bool.false_eq_true, if_false]

theorem dv_events_empty (t : CTable) (row cidx : Nat) (v : Cell) (lname col : String)
    (hdv1 : ((alookup t.data_validation lname).getD []).contains col = false)
    (hdv2 : (t.data_validation.map Prod.fst).contains col = false) :
    dv_events t row cidx v lname col = [] := by
  unfold dv_events
  rcases hdvst : lookup2c t.data_validation_condition lname col with _ | _ | c | cs
  · simp only [hdv1, Bool.false_eq_true, if_false]
  · rfl
  · simp only [hdv2, Bool.false_eq_true, if_false]
  · simp only [hdv2, Bool.false_eq_true, if_false]

theorem cell_writes_at_row_props (t : CTable) (row lvl : Nat) (lname : String) (r c : Nat) :
    cell_writes_at (row_props_events t row lvl lname) r c = [] := by
  rw [row_props_events_eq]
  simp [cell_writes_at]

theorem cell_writes_at_link (t : CTable) (row cidx : Nat) (v : Cell) (lname col : String)
    (r c : Nat) : cell_writes_at (link_events t row cidx v lname col) r c = [] := by
  unfold link_events
  by_cases hg : (t.links.map Prod.fst).contains col
  · rw [if_pos hg]
    rcases hm : lookup2 t.links lname col with _ | m
    · simp only [hm]
      rfl
    · rcases hu : alookup m v with _ | u
      · simp only [hm, hu]
        rfl
      · simp only [hm, hu]
        rfl
  · rw [if_neg hg]
    rfl

/-- Claim C4, amended (the code has no `break`): for a cell whose column has
a registered parallel format/condition list, (a) EVERY condition in the
list is evaluated, in list order; (b) when no condition is true the cell is
written once, unstyled; (c) every true condition performs a styled write
with its index-aligned format, so the cell's final content carries the
format of the LAST true condition. -/
theorem c4_last_match_wins (t : CTable) (row : Nat) (line : Row) (lh : List String)
    (lvl : Nat) (lname col : String) (ss : List String) (cs : List CondV)
    (hfmt : lookup2 t.formats lname col = some (PyStyleStored.slist ss))
    (hcond : lookup2c t.conditions lname col = PyCondStored.clist cs)
    (hlink : (t.links.map Prod.fst).contains col = false)
    (hdv1 : ((alookup t.data_validation lname).getD []).contains col = false)
    (hdv2 : (t.data_validation.map Prod.fst).contains col = false) :
    (write_line_col t row line lh lvl lname col).2 = List.range cs.length ∧
    ((∀ c ∈ cs, c (line.getD (lh.indexOf col) "") = false) →
      cell_writes_at (write_line_col t row line lh lvl lname col).1 row
          (t.start_col + t.header.indexOf col) =
        [(line.getD (lh.indexOf col) "", (none : Option String))]) ∧
    (∀ j, j < cs.length →
      (cs.getD j (fun _ => false)) (line.getD (lh.indexOf col) "") = true →
      (∀ k, j < k → k < cs.length →
        (cs.getD k (fun _ => false)) (line.getD (lh.indexOf col) "") = false) →
      final_cell_at (write_line_col t row line lh lvl lname col).1 row
          (t.start_col + t.header.indexOf col) =
        some (line.getD (lh.indexOf col) "", get_excel_format (ss.getD j ""))) := by
  have hval : value_events t row (t.start_col + t.header.indexOf col)
      (line.getD (lh.indexOf col) "") lname col =
      fmt_cond_loop (PyStyleStored.slist ss) row (t.start_col + t.header.indexOf col)
        (line.getD (lh.indexOf col) "") cs 0 false := by
    unfold value_events
    simp only [hfmt, hcond]
  have hcw : cell_writes_at (write_line_col t row line lh lvl lname col).1 row
      (t.start_col + t.header.indexOf col) =
      sel_pairs (PyStyleStored.slist ss) (line.getD (lh.indexOf col) "") cs 0 ++
        (if False = False ∧ (∀ c ∈ cs, c (line.getD (lh.indexOf col) "") = false)
          then [((line.getD (lh.indexOf col) ""), (none : Option String))] else []) := by
    show cell_writes_at
        ((value_events t row (t.start_col + t.header.indexOf col)
            (line.getD (lh.indexOf col) "") lname col).1 ++
          link_events t row (t.start_col + t.header.indexOf col)
            (line.getD (lh.indexOf col) "") lname col ++
          dv_events t row (t.start_col + t.header.indexOf col)
            (line.getD (lh.indexOf col) "") lname col ++
          row_props_events t row lvl lname) row (t.start_col + t.header.indexOf col) = _
    rw [cell_writes_at_append, cell_writes_at_append, cell_writes_at_append]
    rw [link_events_empty t row _ _ lname col hlink, dv_events_empty t row _ _ lname col hdv1 hdv2,
      cell_writes_at_row_props]
    have hnil : cell_writes_at ([] : List Event) row (t.start_col + t.header.indexOf col) = [] := rfl
    rw [hnil, List.append_nil, List.append_nil, List.append_nil]
    rw [hval, fmt_cond_loop_writes]
    congr 1
    by_cases hc : ∀ c ∈ cs, c (line.getD (lh.indexOf col) "") = false
    · rw [if_pos ⟨rfl, hc⟩, if_pos ⟨rfl, hc⟩]
    · rw [if_neg (fun hx => hc hx.2), if_neg (fun hx => hc hx.2)]
  refine ⟨?_, ?_, ?_⟩
  · show (value_events t row (t.start_col + t.header.indexOf col)
        (line.getD (lh.indexOf col) "") lname col).2 = _
    rw [hval, fmt_cond_loop_evals]
    rw [List.range_eq_range']
  · intro hallf
    rw [hcw, if_pos ⟨rfl, hallf⟩,
      sel_pairs_eq_nil (PyStyleStored.slist ss) (line.getD (lh.indexOf col) "") cs 0 hallf]
    rfl
  · intro j hj htrue hlater
    have hmem : cs.getD j (fun _ => false) ∈ cs := by
      rw [List.getD_eq_getElem cs _ hj]
      exact List.getElem_mem hj
    have hnall : ¬(False = False ∧
        ∀ c ∈ cs, c (line.getD (lh.indexOf col) "") = false) := by
      rintro ⟨-, hall⟩
      rw [hall _ hmem] at htrue
      exact absurd htrue (by simp)
    unfold final_cell_at
    rw [hcw, if_neg hnall, List.append_nil,
      sel_pairs_getLast (PyStyleStored.slist ss) (line.getD (lh.indexOf col) "") cs 0 j hj
        htrue hlater]
    rw [Nat.zero_add]
    rfl

/-- Witness for C4's amended statement: with both conditions true and the
format list `[Bold, Num]`, the final cell format is `Num` (index 1, the last
true condition). -/
theorem c4_last_match_wins_witness :
    final_cell_at (write_line_col tC4 2 ["x"] ["A"] 0 "L" "A").1 2
        (tC4.start_col + tC4.header.indexOf "A") =
      some ((["x"] : Row).getD ((["A"] : List String).indexOf "A") "",
        get_excel_format ((["Bold", "Num"] : List String).getD 1 "")) :=
  (c4_last_match_wins tC4 2 ["x"] ["A"] 0 "L" "A" ["Bold", "Num"]
      [fun _ => true, fun _ => true] rfl rfl (by decide) (by decide) (by decide)).2.2
    1 (by decide) rfl
    (by intro k hk1 hk2; simp only [List.length_cons, List.length_nil] at hk2; omega)

theorem dv_cond_loop_all_false (row cidx : Nat) (v : Cell) :
    ∀ (cs : List CondV) (w : Bool), (∀ c ∈ cs, c v = false) →
      dv_cond_loop row cidx v cs w = if w then [] else [Event.cell row cidx v none] := by
  intro cs
  induction cs with
  | nil => intro w _; rfl
  | cons c rest ih =>
    intro w hall
    rw [dv_cond_loop, hall c (List.mem_cons_self c rest)]
    simp only [Bool.false_eq_true, if_false]
    exact ih w (fun c2 hc2 => hall c2 (List.mem_cons_of_mem c hc2))

/-- Claim C10, amended.  When the column's name IS among the top-level keys
of `data_validation` (the guard the source actually tests) and the stored
condition for (current level, column) is a list with no true condition, the
validation phase re-writes the cell value with no style; that plain write is
the last value write to the cell, so the cell ends up unstyled, and the
whole column body touches no other column (its `set_row` call targets the
row, not a cell). -/
theorem c10_plain_rewrite_guarded (t : CTable) (row : Nat) (line : Row) (lh : List String)
    (lvl : Nat) (lname col : String) (cs : List CondV)
    (hdvout : (t.data_validation.map Prod.fst).contains col = true)
    (hdvc : lookup2c t.data_validation_condition lname col = PyCondStored.clist cs)
    (hall : ∀ c ∈ cs, c (line.getD (lh.indexOf col) "") = false) :
    final_cell_at (write_line_col t row line lh lvl lname col).1 row
        (t.start_col + t.header.indexOf col) =
      some (line.getD (lh.indexOf col) "", (none : Option String)) ∧
    (∀ e ∈ (write_line_col t row line lh lvl lname col).1,
      event_col e = some (t.start_col + t.header.indexOf col) ∨ event_col e = none) := by
  have hdv0 : dv_events t row (t.start_col + t.header.indexOf col)
      (line.getD (lh.indexOf col) "") lname col =
      [Event.cell row (t.start_col + t.header.indexOf col) (line.getD (lh.indexOf col) "") none] := by
    unfold dv_events
    simp only [hdvc, hdvout, if_true]
    rw [dv_cond_loop_all_false _ _ _ cs false hall]
    rfl
  constructor
  · unfold final_cell_at
    show (cell_writes_at
        ((value_events t row (t.start_col + t.header.indexOf col)
            (line.getD (lh.indexOf col) "") lname col).1 ++
          link_events t row (t.start_col + t.header.indexOf col)
            (line.getD (lh.indexOf col) "") lname col ++
          dv_events t row (t.start_col + t.header.indexOf col)
            (line.getD (lh.indexOf col) "") lname col ++
          row_props_events t row lvl lname) row (t.start_col + t.header.indexOf col)).getLast? = _
    rw [cell_writes_at_append, cell_writes_at_append, cell_writes_at_append,
      cell_writes_at_link, cell_writes_at_row_props, hdv0, cell_writes_at_cell,
      List.append_nil, List.append_nil]
    rw [List.getLast?_append_of_ne_nil _ (by simp)]
    rfl
  · intro e he
    show event_col e = some (t.start_col + t.header.indexOf col) ∨ event_col e = none
    have he2 : e ∈ (value_events t row (t.start_col + t.header.indexOf col)
          (line.getD (lh.indexOf col) "") lname col).1 ++
        link_events t row (t.start_col + t.header.indexOf col)
          (line.getD (lh.indexOf col) "") lname col ++
        dv_events t row (t.start_col + t.header.indexOf col)
          (line.getD (lh.indexOf col) "") lname col ++
        row_props_events t row lvl lname := he
    simp only [List.append_assoc, List.mem_append] at he2
    rcases he2 with h | h | h | h
    · obtain ⟨fm, hfm⟩ := value_events_cells t row _ _ lname col e h
      subst hfm
      exact Or.inl rfl
    · obtain ⟨u, hu⟩ := link_events_shape t row _ _ lname col e h
      subst hu
      exact Or.inl rfl
    · rcases dv_events_shape t row _ _ lname col e h with h2 | h2 <;> subst h2
      · exact Or.inl rfl
      · exact Or.inl rfl
    · rw [row_props_events_eq] at h
      simp only [List.mem_singleton] at h
      subst h
      exact Or.inr rfl

/-- Witness for C10's amended statement: on `tC10w` the cell of column `L`
ends up with its value and no style after the validation fallthrough. -/
theorem c10_plain_rewrite_guarded_witness :
    final_cell_at (write_line_col tC10w 2 ["a", "b"] ["L", "X"] 0 "L" "L").1 2
        (tC10w.start_col + tC10w.header.indexOf "L") =
      some ((["a", "b"] : Row).getD ((["L", "X"] : List String).indexOf "L") "",
        (none : Option String)) :=
  (c10_plain_rewrite_guarded tC10w 2 ["a", "b"] ["L", "X"] 0 "L" "L" [fun _ => false]
    (by decide) rfl (by decide)).1

end Excel
